import Mathlib

/-!
Verification of the topology-discovery and layout engine of the aws-graph
repository.  The definitions below are a shallow embedding of
`src/awsDiscovery.js` and of the layered layout function
`buildHeuristicLayout` of `src/index.js`.  JavaScript strings are modelled
by `String`, absent string fields by `""` (matching JS truthiness checks on
strings) except where the source uses the nullish operator `??`, where an
`Option` is used.  JS `Map`s are modelled by insertion-ordered association
lists, JS `Set`s by lists.
-/

namespace Aws

/-- Split of a character list at every occurrence of `sep`, keeping empty
pieces: the semantics of the JS `String.prototype.split` with a
single-character separator.  (Lean's own `String.splitOn` has the same
behavior but is not kernel-reducible, so the embedding uses this
structural version.) -/
def splitChar (sep : Char) : List Char → List (List Char)
  | [] => [[]]
  | c :: rest =>
    match splitChar sep rest with
    | [] => [[]]
    | s :: ss => if c = sep then [] :: s :: ss else (c :: s) :: ss

/-- Split of a string at a single-character separator (JS `split(sep)`). -/
def splitString (sep : Char) (s : String) : List String :=
  (splitChar sep s.data).map String.mk

/-- Split of a character list at every character satisfying `p`
(JS `split(regexCharClass)`). -/
def splitPredChar (p : Char → Bool) : List Char → List (List Char)
  | [] => [[]]
  | c :: rest =>
    match splitPredChar p rest with
    | [] => [[]]
    | s :: ss => if p c then [] :: s :: ss else (c :: s) :: ss

/-- Membership of a character in a string (JS `includes` with a
one-character needle, as used by `parseArn`). -/
def strContains (s : String) (c : Char) : Bool :=
  s.data.contains c

/-- Joining a list of strings with a separator (JS `Array.prototype.join`
/ the re-joining of resource parts in `parseArn`). -/
def joinString (sep : String) : List String → String
  | [] => ""
  | [x] => x
  | x :: y :: rest => x ++ sep ++ joinString sep (y :: rest)

/-- Structural string-prefix test (JS `String.prototype.startsWith`). -/
def listStartsWith : List Char → List Char → Bool
  | [], _ => true
  | _ :: _, [] => false
  | a :: as, b :: bs => a == b && listStartsWith as bs

/-- Lookup in an insertion-ordered association list (JS `Map.get`). -/
def mapGet {κ α : Type} [DecidableEq κ] (m : List (κ × α)) (k : κ) : Option α :=
  match m with
  | [] => none
  | (k₁, v) :: rest => if k₁ = k then some v else mapGet rest k

/-- Update in an insertion-ordered association list (JS `Map.set`): an
existing key keeps its position and gets the new value, a fresh key is
appended at the end. -/
def mapSet {κ α : Type} [DecidableEq κ] (m : List (κ × α)) (k : κ) (v : α) :
    List (κ × α) :=
  match m with
  | [] => [(k, v)]
  | (k₁, v₁) :: rest =>
    if k₁ = k then (k, v) :: rest else (k₁, v₁) :: mapSet rest k v

/-- Stored graph node, as normalized by `GraphBuilder.addNode`
(`src/awsDiscovery.js` lines 157-161). -/
structure Node where
  id : String
  label : String
  service : String
deriving DecidableEq, Repr

/-- Candidate node passed to `addNode`: `label` and `service` go through
`??`, hence `Option`; a missing or empty `id` is modelled by `""`
(JS truthiness). -/
structure NodeInput where
  id : String
  label : Option String
  service : Option String
deriving DecidableEq, Repr

/-- Stored graph edge; `type` is omitted (`none`) when the candidate type
was falsy (`src/awsDiscovery.js` line 181). -/
structure Edge where
  source : String
  target : String
  type : Option String
deriving DecidableEq, Repr

/-- Candidate edge passed to `addEdge`; absent source/target are modelled
by the empty string (JS truthiness check at line 169). -/
structure EdgeInput where
  source : String
  target : String
  type : Option String
deriving DecidableEq, Repr

/-- Dedup key of an edge candidate (`src/awsDiscovery.js` line 173). -/
def edgeKey (e : EdgeInput) : String :=
  e.source ++ "|" ++ e.target ++ "|" ++ (e.type.getD "")

/-- Normalization of a candidate edge (`src/awsDiscovery.js` lines 178-182):
the `type` field is kept only when truthy. -/
def normalizeEdge (e : EdgeInput) : Edge :=
  { source := e.source
    target := e.target
    type := match e.type with
      | some t => if t = "" then none else some t
      | none => none }

/-- Dedup key recomputed from a stored edge. -/
def storedKey (e : Edge) : String :=
  e.source ++ "|" ++ e.target ++ "|" ++ (e.type.getD "")

/-- Identity triple of a stored edge. -/
def storedTriple (e : Edge) : String × String × Option String :=
  (e.source, e.target, e.type)

/-- State of the `GraphBuilder` class (`src/awsDiscovery.js` lines 140-194):
node list, edge list, node index (a `Map` keyed by id) and edge-key index
(a `Set`). -/
structure Builder where
  nodes : List Node
  edges : List Edge
  nodeIndex : List (String × Node)
  edgeIndex : List String
deriving DecidableEq, Repr

/-- Freshly constructed `GraphBuilder`. -/
def Builder.empty : Builder := ⟨[], [], [], []⟩

/-- Embedding of `GraphBuilder.addNode` (`src/awsDiscovery.js` lines
148-166).  Throwing is modelled by `Except.error`; on success it returns
the canonical stored node together with the (possibly updated) state. -/
def Builder.addNode (b : Builder) (n : NodeInput) : Except String (Node × Builder) :=
  if n.id = "" then .error "Node must include an id"
  else
    match mapGet b.nodeIndex n.id with
    | some existing => .ok (existing, b)
    | none =>
      let normalizedNode : Node :=
        { id := n.id, label := n.label.getD n.id, service := n.service.getD "Unknown" }
      .ok (normalizedNode,
        { b with
          nodes := b.nodes ++ [normalizedNode]
          nodeIndex := mapSet b.nodeIndex n.id normalizedNode })

/-- Embedding of `GraphBuilder.addEdge` (`src/awsDiscovery.js` lines
168-186). -/
def Builder.addEdge (b : Builder) (e : EdgeInput) : Builder :=
  if e.source = "" ∨ e.target = "" then b
  else
    let key := edgeKey e
    if key ∈ b.edgeIndex then b
    else
      { b with
        edges := b.edges ++ [normalizeEdge e]
        edgeIndex := b.edgeIndex ++ [key] }

/-- One Graph Store mutation. -/
inductive GraphOp where
  | node (n : NodeInput)
  | edge (e : EdgeInput)
deriving DecidableEq, Repr

/-- Application of one operation to the builder state (a failed `addNode`
throws before any mutation, so the state is unchanged). -/
def Builder.applyOp (b : Builder) (op : GraphOp) : Builder :=
  match op with
  | .node n =>
    match b.addNode n with
    | .ok r => r.2
    | .error _ => b
  | .edge e => b.addEdge e

/-- Application of a sequence of operations. -/
def Builder.applyOps (b : Builder) (ops : List GraphOp) : Builder :=
  ops.foldl Builder.applyOp b

/-- Decomposed resource identifier (`parseArn` result object,
`src/awsDiscovery.js` lines 242-251). -/
structure ParsedArn where
  arn : String
  partition : String
  service : String
  region : String
  accountId : String
  resource : String
  resourceType : String
  resourceId : String
deriving DecidableEq, Repr

/-- Embedding of `parseArn` (`src/awsDiscovery.js` lines 213-252).
`splitString ':'` has the same semantics as the JS `split(':')` used by
the source (empty pieces preserved). -/
def parseArn (arn : String) : Option ParsedArn :=
  if listStartsWith "arn:".data arn.data = false then none
  else
    let parts := splitString ':' arn
    if parts.length < 6 then none
    else
      let partition := parts.getD 1 ""
      let service := parts.getD 2 ""
      let region := parts.getD 3 ""
      let accountId := parts.getD 4 ""
      let resource := joinString ":" (parts.drop 5)
      let split :=
        if strContains resource '/' then
          let segs := splitString '/' resource
          (segs.headD "", segs.getLastD "")
        else if strContains resource ':' then
          let segs := splitString ':' resource
          (segs.headD "", segs.getLastD "")
        else ("", resource)
      let resourceId := if split.2 = "" then resource else split.2
      some
        { arn := arn, partition := partition, service := service
          region := region, accountId := accountId, resource := resource
          resourceType := split.1, resourceId := resourceId }

/-- Canonicalization table for service names (`serviceNameMap`,
`src/awsDiscovery.js` lines 9-33). -/
def serviceNameMap : List (String × String) :=
  [("lambda", "Lambda"), ("s3", "S3"), ("dynamodb", "DynamoDB"),
   ("sqs", "SQS"), ("sns", "SNS"), ("events", "EventBridge"),
   ("eventbridge", "EventBridge"), ("states", "StepFunctions"),
   ("logs", "CloudWatch"), ("cloudwatch", "CloudWatch"),
   ("cloudwatchevents", "CloudWatchEvents"), ("cloudtrail", "CloudTrail"),
   ("ec2", "EC2"), ("elasticloadbalancing", "ELB"),
   ("elasticfilesystem", "EFS"), ("kms", "KMS"), ("iam", "IAM"),
   ("rds", "RDS"), ("secretsmanager", "SecretsManager"), ("ssm", "SSM"),
   ("ssmmessages", "SSM"), ("servicediscovery", "CloudMap"),
   ("kinesis", "Kinesis")]

/-- Embedding of `normalizeService` (`src/awsDiscovery.js` lines 201-211).
The JS key strips every character outside `[a-zA-Z0-9]` and lowercases. -/
def normalizeService (rawService : String) : String :=
  let key := String.mk ((rawService.data.filter Char.isAlphanum).map Char.toLower)
  match mapGet serviceNameMap key with
  | some nice => nice
  | none =>
    if rawService = "" then "Unknown"
    else
      match rawService.data with
      | [] => rawService
      | c :: rest => String.mk (c.toUpper :: rest)

/-- Embedding of `describeArn` (`src/awsDiscovery.js` lines 254-280). -/
def describeArn (arn : String) : Node :=
  match parseArn arn with
  | none => { id := arn, label := arn, service := "Unknown" }
  | some parsed =>
    let niceService := normalizeService parsed.service
    let label0 := if parsed.resourceId ≠ "" then parsed.resourceId else parsed.resource
    let label1 :=
      if label0 = "" ∨ label0 = parsed.resource then
        (((((splitPredChar (fun c => c == '/' || c == ':')
              parsed.resource.data).map String.mk).filter
            fun s => s ≠ "").getLast?).getD parsed.resource)
      else label0
    let label2 :=
      if niceService = "S3" ∧ parsed.resource ≠ "" then
        String.mk (parsed.resource.data.dropWhile fun c => c == '/')
      else label1
    { id := arn, label := label2, service := niceService }

/-- Well-formedness invariant of the Graph Store: node ids are pairwise
distinct, the node index agrees with the node list, stored edge keys are
pairwise distinct and registered in the edge index. -/
structure Builder.WF (b : Builder) : Prop where
  nodesNodup : (b.nodes.map Node.id).Nodup
  indexComplete : ∀ nd ∈ b.nodes, mapGet b.nodeIndex nd.id = some nd
  indexSound : ∀ i nd, mapGet b.nodeIndex i = some nd → nd ∈ b.nodes ∧ nd.id = i
  edgeKeysNodup : (b.edges.map storedKey).Nodup
  edgeKeysMem : ∀ e ∈ b.edges, storedKey e ∈ b.edgeIndex

/-- Single-quote character, written via its code point. -/
def squote : Char := Char.ofNat 39

/-- Backtick character, written via its code point. -/
def btick : Char := Char.ofNat 96

/-- Whitespace class of JS regexes (`\s`), restricted to its ASCII members
plus NBSP. -/
def isJsSpace (c : Char) : Bool :=
  c == ' ' || c == '\t' || c == '\n' || c == '\r' ||
    c.val == 11 || c.val == 12 || c.val == 160

/-- JS `String.prototype.trim`. -/
def strTrim (s : String) : String :=
  String.mk (((s.data.dropWhile isJsSpace).reverse.dropWhile isJsSpace).reverse)

/-- Substring test on character lists (used to state that an entry
contains a literal). -/
def containsSub (needle : List Char) : List Char → Bool
  | [] => needle.isEmpty
  | c :: rest => listStartsWith needle (c :: rest) || containsSub needle rest

/-- Case-sensitive literal match; returns the remaining input. -/
def matchLit : List Char → List Char → Option (List Char)
  | [], cs => some cs
  | _ :: _, [] => none
  | n :: ns, c :: cs => if c = n then matchLit ns cs else none

/-- Case-insensitive literal match (the needle is given lowercase, as in a
JS regex with the `i` flag); returns the remaining input. -/
def matchLitCI : List Char → List Char → Option (List Char)
  | [], cs => some cs
  | _ :: _, [] => none
  | n :: ns, c :: cs => if c.toLower = n then matchLitCI ns cs else none

/-- Distance to the first occurrence of the closing quote `q`, failing on
line terminators first: the semantics of the lazy `(.*?)` of
`functionNameRegex` followed by the backreferenced quote (JS `.` does not
match line terminators). -/
def findCloseNoNl (q : Char) : List Char → Option Nat
  | [] => none
  | c :: rest =>
    if c = q then some 0
    else if c = '\n' ∨ c = '\r' then none
    else (findCloseNoNl q rest).map (· + 1)

/-- Distance to the first occurrence of `q` (the lazy `([\s\S]*?)` of the
backtick alternative of `functionNameRegex`). -/
def findClose (q : Char) : List Char → Option Nat
  | [] => none
  | c :: rest =>
    if c = q then some 0 else (findClose q rest).map (· + 1)

/-- Match of `functionNameRegex`
(`/FunctionName\s*[:=]\s*(["'])(.*?)\1|FunctionName\s*[:=]\s*`...`/gi`,
`src/awsDiscovery.js` line 642) anchored at the head of the input; returns
the length of the match.  The greedy `\s*` needs no backtracking because
`\s`, `[:=]` and the quote classes are disjoint; when the first
alternative's closing quote is missing the second alternative requires a
backtick at the same position, so both alternatives are decided by the
quote character found. -/
def matchFunctionNameAt (cs : List Char) : Option Nat :=
  match matchLitCI "functionname".data cs with
  | none => none
  | some r1 =>
    let ws1 := (r1.takeWhile isJsSpace).length
    let r2 := r1.drop ws1
    match r2 with
    | [] => none
    | c :: r3 =>
      if c = ':' ∨ c = '=' then
        let ws2 := (r3.takeWhile isJsSpace).length
        let r4 := r3.drop ws2
        match r4 with
        | [] => none
        | q :: r5 =>
          if q = '"' ∨ q = squote then
            match findCloseNoNl q r5 with
            | some d => some (12 + ws1 + 1 + ws2 + 1 + d + 1)
            | none => none
          else if q = btick then
            match findClose btick r5 with
            | some d => some (12 + ws1 + 1 + ws2 + 1 + d + 1)
            | none => none
          else none
      else none

/-- Extraction of the name from a `functionNameRegex` match:
`fnMatch[0].slice('FunctionName: `'.length, -1)` (line 645), i.e. the
characters of the match from index 15 to the second-to-last. -/
def fnMatchName (m : List Char) : List Char :=
  m.dropLast.drop 15

/-- All matches of `functionNameRegex` over a text, in order, following
the `exec` loop semantics (search from `lastIndex`, advance past each
match). -/
def scanFunctionNameMatches : Nat → List Char → List (List Char)
  | 0, _ => []
  | _, [] => []
  | fuel + 1, c :: rest =>
    match matchFunctionNameAt (c :: rest) with
    | some len =>
      (c :: rest).take len :: scanFunctionNameMatches fuel ((c :: rest).drop len)
    | none => scanFunctionNameMatches fuel rest

/-- Match of `arnRegex` (`/arn:aws[a-zA-Z-]*:lambda:[^\s'"`]+/g`, line
632) anchored at the head of the input; returns the length of the match.
The greedy `[a-zA-Z-]*` needs no backtracking because the following
character is `:`. -/
def matchArnAt (cs : List Char) : Option Nat :=
  match matchLit "arn:aws".data cs with
  | none => none
  | some r1 =>
    let mid := (r1.takeWhile fun c => c.isAlpha || c == '-').length
    let r2 := r1.drop mid
    match matchLit ":lambda:".data r2 with
    | none => none
    | some r3 =>
      let tail := (r3.takeWhile fun c =>
        !(isJsSpace c || c == squote || c == '"' || c == btick)).length
      if tail = 0 then none else some (7 + mid + 8 + tail)

/-- All matches of `arnRegex` over a text, in order. -/
def scanArnMatches : Nat → List Char → List (List Char)
  | 0, _ => []
  | _, [] => []
  | fuel + 1, c :: rest =>
    match matchArnAt (c :: rest) with
    | some len =>
      (c :: rest).take len :: scanArnMatches fuel ((c :: rest).drop len)
    | none => scanArnMatches fuel rest

/-- Match of `invokeRegex` (`/\.invoke\s*\(\s*['"`]([^'"`]+)['"`]/gi`,
line 652) anchored at the head of the input; returns the length of the
match and the captured group. -/
def matchInvokeAt (cs : List Char) : Option (Nat × List Char) :=
  match cs with
  | [] => none
  | c :: r0 =>
    if c = '.' then
      match matchLitCI "invoke".data r0 with
      | none => none
      | some r1 =>
        let ws1 := (r1.takeWhile isJsSpace).length
        let r2 := r1.drop ws1
        match r2 with
        | [] => none
        | p :: r3 =>
          if p = '(' then
            let ws2 := (r3.takeWhile isJsSpace).length
            let r4 := r3.drop ws2
            match r4 with
            | [] => none
            | q :: r5 =>
              if q = '"' ∨ q = squote ∨ q = btick then
                let cap := r5.takeWhile fun ch =>
                  !(ch == '"' || ch == squote || ch == btick)
                if cap.length = 0 then none
                else
                  match r5.drop cap.length with
                  | [] => none
                  | _ :: _ =>
                    some (1 + 6 + ws1 + 1 + ws2 + 1 + cap.length + 1, cap)
              else none
          else none
    else none

/-- All captures of `invokeRegex` over a text, in order. -/
def scanInvokeCaptures : Nat → List Char → List (List Char)
  | 0, _ => []
  | _, [] => []
  | fuel + 1, c :: rest =>
    match matchInvokeAt (c :: rest) with
    | some (len, cap) =>
      cap :: scanInvokeCaptures fuel ((c :: rest).drop len)
    | none => scanInvokeCaptures fuel rest

/-- Kind of an invocation target (`type: 'arn' | 'name'`). -/
inductive TargetType where
  | arn
  | name
deriving DecidableEq, Repr

/-- Candidate invocation target found by the static scan. -/
structure InvocationTarget where
  ttype : TargetType
  value : String
deriving DecidableEq, Repr

/-- Archive entry surviving extraction (`{ path, content }`). -/
structure ArchiveEntry where
  path : String
  content : String
deriving DecidableEq, Repr

/-- Keyed first-insertion-wins accumulation into the targets map
(`if (!targets.has(key)) targets.set(key, ...)`). -/
def addTarget (m : List (String × InvocationTarget)) (key : String)
    (t : InvocationTarget) : List (String × InvocationTarget) :=
  if (mapGet m key).isSome then m else m ++ [(key, t)]

/-- Targets contributed by one entry's content, in source order: `arnRegex`
matches, then `functionNameRegex` matches, then `invokeRegex` captures
(`src/awsDiscovery.js` lines 627-661). -/
def targetsOfContent (m : List (String × InvocationTarget)) (content : String) :
    List (String × InvocationTarget) :=
  let cs := content.data
  let m1 := (scanArnMatches cs.length cs).foldl
    (fun acc mchars =>
      let arn := String.mk mchars
      addTarget acc ("arn|" ++ arn) ⟨.arn, arn⟩) m
  let m2 := (scanFunctionNameMatches cs.length cs).foldl
    (fun acc mchars =>
      let nm := String.mk (fnMatchName mchars)
      addTarget acc ("name|" ++ nm) ⟨.name, nm⟩) m1
  (scanInvokeCaptures cs.length cs).foldl
    (fun acc cap =>
      let nm := String.mk cap
      addTarget acc ("name|" ++ nm) ⟨.name, nm⟩) m2

/-- Embedding of `findLambdaInvocationTargets`
(`src/awsDiscovery.js` lines 624-664). -/
def findLambdaInvocationTargets (entries : List ArchiveEntry) :
    List InvocationTarget :=
  (entries.foldl (fun m e => targetsOfContent m e.content) []).map Prod.snd

/-- Known Lambda function descriptor as used by the scan; absent string
fields are the empty string (JS truthiness). -/
structure LambdaFn where
  FunctionArn : String
  FunctionName : String
deriving DecidableEq, Repr

/-- Embedding of `normalizeFunctionArn` (`src/awsDiscovery.js` lines
495-505) on string input. -/
def normalizeFunctionArn (arn : String) : String :=
  let trimmed := strTrim arn
  let parts := splitString ':' trimmed
  if 7 < parts.length ∧ parts.getD 5 "" = "function" then
    joinString ":" (parts.take 7)
  else trimmed

/-- Index of known functions by ARN, exact and normalized
(`src/awsDiscovery.js` lines 795-809); `if (normalized)` is string
truthiness. -/
def lambdaIndexByArn (fns : List LambdaFn) : List (String × LambdaFn) :=
  fns.foldl
    (fun m fn =>
      if fn.FunctionArn ≠ "" then
        let m1 := mapSet m fn.FunctionArn fn
        let normalized := normalizeFunctionArn fn.FunctionArn
        if normalized ≠ "" then mapSet m1 normalized fn else m1
      else m) []

/-- Index of known functions by name (`src/awsDiscovery.js` lines
806-808). -/
def lambdaIndexByName (fns : List LambdaFn) : List (String × LambdaFn) :=
  fns.foldl
    (fun m fn =>
      if fn.FunctionName ≠ "" then mapSet m fn.FunctionName fn else m) []

/-- Resolution result of an invocation target. -/
structure ResolvedTarget where
  nodeId : String
  label : String
deriving DecidableEq, Repr

/-- Embedding of `resolveLambdaTarget` (`src/awsDiscovery.js` lines
666-701); `a || b` on strings is modelled by emptiness tests. -/
def resolveLambdaTarget (target : InvocationTarget)
    (byArn byName : List (String × LambdaFn)) : Option ResolvedTarget :=
  match target.ttype with
  | .arn =>
    let normalized := normalizeFunctionArn target.value
    let known :=
      match mapGet byArn target.value with
      | some fn => some fn
      | none => mapGet byArn normalized
    match known with
    | some fn =>
      let nodeId := if fn.FunctionArn ≠ "" then fn.FunctionArn else fn.FunctionName
      some ⟨nodeId, if fn.FunctionName ≠ "" then fn.FunctionName else nodeId⟩
    | none =>
      let label0 :=
        if normalized ≠ "" then (splitString ':' normalized).getLastD ""
        else target.value
      some ⟨normalized, if label0 ≠ "" then label0 else target.value⟩
  | .name =>
    let rawName := strTrim target.value
    if rawName = "" then none
    else
      let baseName := (splitString ':' rawName).headD ""
      let known :=
        match mapGet byName rawName with
        | some fn => some fn
        | none => mapGet byName baseName
      match known with
      | some fn =>
        let nodeId := if fn.FunctionArn ≠ "" then fn.FunctionArn else fn.FunctionName
        some ⟨nodeId, if fn.FunctionName ≠ "" then fn.FunctionName else nodeId⟩
      | none => some ⟨"lambda://" ++ baseName, baseName⟩

/-- Per-function invocation-edge pass of
`discoverLambdaInvocationRelations` (`src/awsDiscovery.js` lines 860-883):
each extracted target is resolved, self references are suppressed, and a
`Lambda` node plus an `invokes` edge are inserted (the source's edge
counters, used only for the summary message, are not modelled). -/
def processInvocationTargets (builder : Builder) (fn : LambdaFn)
    (entries : List ArchiveEntry)
    (byArn byName : List (String × LambdaFn)) : Builder :=
  (findLambdaInvocationTargets entries).foldl
    (fun b target =>
      match resolveLambdaTarget target byArn byName with
      | none => b
      | some resolved =>
        let sourceId := if fn.FunctionArn ≠ "" then fn.FunctionArn else fn.FunctionName
        if resolved.nodeId = sourceId then b
        else
          let b1 :=
            match b.addNode ⟨resolved.nodeId, some resolved.label, some "Lambda"⟩ with
            | .ok r => r.2
            | .error _ => b
          b1.addEdge ⟨sourceId, resolved.nodeId, some "invokes"⟩) builder

/-- One recorded validation step (`validationSteps` entries of
`buildAwsGraph`, `src/awsDiscovery.js`). -/
structure ValidationStep where
  action : String
  status : String
  message : String
deriving DecidableEq, Repr

/-- Statistics object returned by `discoverLambdaInvocationRelations`
(`src/awsDiscovery.js` lines 907-914). -/
structure InvocationStats where
  attempted : Nat
  scanned : Nat
  failures : Nat
  invocationEdges : Nat
  serviceEdges : Nat
deriving DecidableEq, Repr

/-- Truncation of a message string (JS `message.slice(0, 200)`). -/
def strTake (s : String) (n : Nat) : String :=
  String.mk (s.data.take n)

/-- Message parts of the code-analysis validation step
(`src/awsDiscovery.js` lines 1072-1079); JS number truthiness is `≠ 0`. -/
def codeAnalysisMessageParts (stats : InvocationStats) : List String :=
  ["Analyzed " ++ toString stats.scanned ++ "/" ++ toString stats.attempted ++
     " Lambda code package(s)",
   "found " ++ toString stats.invocationEdges ++ " Lambda invocation link(s)"] ++
  (if stats.serviceEdges ≠ 0 then
     ["found " ++ toString stats.serviceEdges ++ " service usage link(s)"]
   else []) ++
  (if stats.failures ≠ 0 then
     [toString stats.failures ++ " package(s) failed to analyze"]
   else [])

/-- Embedding of the code-analysis validation step pushed by
`buildAwsGraph` (`src/awsDiscovery.js` lines 1069-1084).  `attemptCount`
is `stats.attempted` (always set by `discoverLambdaInvocationRelations`). -/
def codeAnalysisStep (stats : InvocationStats) : ValidationStep :=
  { action := "codeAnalysis"
    status :=
      if 0 < stats.attempted ∧ stats.failures = stats.attempted then "failure"
      else "success"
    message := joinString "; " (codeAnalysisMessageParts stats) ++ "." }

/-- Authentication success step (`src/awsDiscovery.js` lines 940-944). -/
def authSuccessStep (identityArn region : String) : ValidationStep :=
  { action := "authentication", status := "success"
    message := "Authenticated as " ++ identityArn ++ " in " ++ region ++ "." }

/-- Resource-discovery success step (`src/awsDiscovery.js` lines
1090-1094); `relatedCount` is clamped at zero, which is `Nat` subtraction. -/
def resourceDiscoverySuccessStep (functionCount relatedCount : Nat) : ValidationStep :=
  { action := "resourceDiscovery", status := "success"
    message := "Discovered " ++ toString functionCount ++
      " Lambda function(s) and " ++ toString relatedCount ++
      " related resource(s)." }

/-- Abstract outcome of the effectful collaborators of one `buildAwsGraph`
run: authentication may fail, the function listing may fail or be empty
(the three fatal paths), or the run completes with some invocation-scan
statistics and final graph node count.  `completed` models the runs that
return without the `error` field. -/
inductive RunEnv where
  | authFailure (errMsg : String)
  | listFailure (reason : String) (identityArn : String) (region : String)
  | noFunctions (identityArn : String) (region : String)
  | completed (identityArn : String) (region : String)
      (functionCount : Nat) (stats : InvocationStats) (nodeCount : Nat)
deriving DecidableEq, Repr

/-- Ordered list of validation steps produced by `buildAwsGraph`
(`src/awsDiscovery.js` lines 916-1101), as a function of the abstract run
outcome: each branch pushes exactly the steps the corresponding source
path pushes, in source order. -/
def buildAwsGraphSteps : RunEnv → List ValidationStep
  | .authFailure msg =>
    [⟨"authentication", "failure", strTake msg 200⟩]
  | .listFailure reason idArn region =>
    [authSuccessStep idArn region,
     ⟨"resourceDiscovery", "failure", strTake ("ListFunctions failed: " ++ reason) 200⟩]
  | .noFunctions idArn region =>
    [authSuccessStep idArn region,
     ⟨"resourceDiscovery", "failure", "No Lambda functions were found."⟩]
  | .completed idArn region fnCount stats nodeCount =>
    [authSuccessStep idArn region,
     codeAnalysisStep stats,
     resourceDiscoverySuccessStep fnCount (nodeCount - fnCount)]

/-- Input node of the layered layout engine (`buildHeuristicLayout`,
`src/index.js` lines 143-373). -/
structure LNode where
  id : String
  label : String
  service : String
deriving DecidableEq, Repr

/-- Input edge of the layout engine; only `source` and `target` are read
by `buildHeuristicLayout`. -/
structure LEdge where
  source : String
  target : String
deriving DecidableEq, Repr

/-- Positioned output node of the layout engine; coordinates are modelled
exactly in `ℚ` (the JS arithmetic on the layout constants stays within
exactly representable values for the integral parts; averages are modelled
as exact rationals). -/
structure PositionedNode where
  id : String
  label : String
  service : String
  x : ℚ
  y : ℚ
deriving DecidableEq, Repr

/-- `nodesById` map (`src/index.js` lines 145-148). -/
def nodesByIdOf (nodes : List LNode) : List (String × LNode) :=
  nodes.foldl (fun m n => mapSet m n.id n) []

/-- Adjacency, reverse adjacency and in-degree maps of the layout engine
(`src/index.js` lines 150-167). -/
structure AdjState where
  adjacency : List (String × List String)
  incoming : List (String × List String)
  indegree : List (String × Int)
deriving DecidableEq, Repr

/-- Initialization of the adjacency maps: every node id gets an empty
successor list, empty predecessor list, and in-degree 0 (lines 154-158). -/
def adjInit (nodes : List LNode) : AdjState :=
  nodes.foldl
    (fun st n =>
      ⟨mapSet st.adjacency n.id [], mapSet st.incoming n.id [],
       mapSet st.indegree n.id 0⟩)
    ⟨[], [], []⟩

/-- Processing of one edge into the adjacency maps (lines 160-167): edges
with an endpoint absent from `nodesById` are skipped. -/
def adjStep (nodesById : List (String × LNode)) (st : AdjState) (e : LEdge) :
    AdjState :=
  if (mapGet nodesById e.source).isNone ∨ (mapGet nodesById e.target).isNone then st
  else
    ⟨mapSet st.adjacency e.source ((mapGet st.adjacency e.source).getD [] ++ [e.target]),
     mapSet st.incoming e.target ((mapGet st.incoming e.target).getD [] ++ [e.source]),
     mapSet st.indegree e.target ((mapGet st.indegree e.target).getD 0 + 1)⟩

/-- Adjacency maps after all edges are processed. -/
def adjStateOf (nodes : List LNode) (edges : List LEdge) : AdjState :=
  edges.foldl (adjStep (nodesByIdOf nodes)) (adjInit nodes)

/-- Initial queue of the layer relaxation: nodes with in-degree exactly 0,
in map insertion order (lines 169-174). -/
def initialQueue (indegree : List (String × Int)) : List String :=
  (indegree.filter fun p => p.2 = 0).map Prod.fst

/-- Initial layer map: every initially queued node is put on layer 0
(line 177). -/
def initialLayers (queue : List String) : List (String × Nat) :=
  queue.foldl (fun m id => mapSet m id 0) []

/-- State of the zero-in-degree relaxation loop (lines 180-197). -/
structure BfsState where
  queue : List String
  visited : List String
  layer : List (String × Nat)
  indeg : List (String × Int)
deriving DecidableEq, Repr

/-- Relaxation of one outgoing edge of the dequeued node (lines 185-196):
the target's layer is raised to `max(existing, current + 1)`, its
in-degree counter is decremented, and it is enqueued when the counter
reaches exactly 0 and it was not visited. -/
def relaxNeighbor (currentLayer : Nat) (st : BfsState) (targetId : String) :
    BfsState :=
  let proposedLayer := currentLayer + 1
  let layer1 :=
    match mapGet st.layer targetId with
    | none => mapSet st.layer targetId proposedLayer
    | some existing =>
      if existing < proposedLayer then mapSet st.layer targetId proposedLayer
      else st.layer
  let nextIndegree := (mapGet st.indeg targetId).getD 0 - 1
  let indeg1 := mapSet st.indeg targetId nextIndegree
  let queue1 :=
    if nextIndegree = 0 ∧ targetId ∉ st.visited then st.queue ++ [targetId]
    else st.queue
  ⟨queue1, st.visited, layer1, indeg1⟩

/-- One iteration of the relaxation loop (lines 180-197): dequeue, mark
visited, and relax every successor in order. -/
def bfsStep (adjacency : List (String × List String)) (st : BfsState) :
    BfsState :=
  match st.queue with
  | [] => st
  | nodeId :: rest =>
    let currentLayer := (mapGet st.layer nodeId).getD 0
    let neighbors := (mapGet adjacency nodeId).getD []
    neighbors.foldl (relaxNeighbor currentLayer)
      ⟨rest, st.visited ++ [nodeId], st.layer, st.indeg⟩

/-- Fuel-indexed run of the relaxation loop until the queue empties.  A
node is enqueued at most once by the initial scan and at most once by a
counter reaching zero (the counter strictly decreases at each decrement),
so `2 * (number of node ids) + 1` steps of fuel always drain the queue. -/
def bfsRun (adjacency : List (String × List String)) :
    Nat → BfsState → BfsState
  | 0, st => st
  | fuel + 1, st =>
    match st.queue with
    | [] => st
    | _ :: _ => bfsRun adjacency fuel (bfsStep adjacency st)

/-- Final state of the zero-in-degree relaxation for a graph. -/
def bfsStateOf (nodes : List LNode) (edges : List LEdge) : BfsState :=
  let adj := adjStateOf nodes edges
  let q0 := initialQueue adj.indegree
  bfsRun adj.adjacency (2 * adj.indegree.length + 1)
    ⟨q0, [], initialLayers q0, adj.indegree⟩

/-- Nodes unreached by the relaxation (no assigned layer), in `nodesById`
insertion order (lines 199-204). -/
def unresolvedOf (nodesById : List (String × LNode))
    (layer : List (String × Nat)) : List String :=
  (nodesById.map Prod.fst).filter fun id => (mapGet layer id).isNone

/-- Stable node comparator (lines 206-218): service, then label, then id;
`localeCompare` is modelled as lexicographic string comparison. -/
def compareNodes (nodesById : List (String × LNode)) (a b : String) :
    Ordering :=
  let sa := match mapGet nodesById a with | some n => n.service | none => ""
  let sb := match mapGet nodesById b with | some n => n.service | none => ""
  let c1 := compare sa sb
  if c1 ≠ .eq then c1
  else
    let la := match mapGet nodesById a with | some n => n.label | none => ""
    let lb := match mapGet nodesById b with | some n => n.label | none => ""
    let c2 := compare la lb
    if c2 ≠ .eq then c2 else compare a b

/-- Stable sort by a three-way comparator: the JS `Array.prototype.sort`
(stable since ES2019) is modelled by a stable merge sort keeping `a`
before `b` whenever the comparator does not order `b` strictly first. -/
def sortByCmp {α : Type} (cmp : α → α → Ordering) (l : List α) : List α :=
  l.mergeSort fun a b => cmp a b ≠ .gt

/-- One downward pass of the cycle-resolution loop (lines 222-236): the
unresolved array is walked from its last index to its first, and every
node with at least one layered predecessor gets
`max(parent layers) + 1` and is removed.  Processing the tail first
mirrors the downward index walk. -/
def relaxPass (incoming : List (String × List String)) :
    List (String × Nat) → List String →
      List (String × Nat) × List String × Bool
  | layer, [] => (layer, [], false)
  | layer, x :: xs =>
    let r := relaxPass incoming layer xs
    let parentLayers := ((mapGet incoming x).getD []).filterMap fun p =>
      mapGet r.1 p
    match parentLayers with
    | [] => (r.1, x :: r.2.1, r.2.2)
    | _ :: _ =>
      (mapSet r.1 x ((parentLayers.foldl max 0) + 1), r.2.1, true)

/-- The cycle-resolution loop: passes repeat while the unresolved list is
non-empty and the previous pass made progress (lines 221-236).  Each
progressing pass removes at least one node, so fuel
`length + 1` suffices. -/
def relaxLoop (incoming : List (String × List String)) :
    Nat → List (String × Nat) → List String →
      List (String × Nat) × List String
  | 0, layer, unresolved => (layer, unresolved)
  | fuel + 1, layer, unresolved =>
    match unresolved with
    | [] => (layer, unresolved)
    | _ :: _ =>
      let r := relaxPass incoming layer unresolved
      if r.2.2 then relaxLoop incoming fuel r.1 r.2.1 else (r.1, r.2.1)

/-- Layer map and still-unresolved remainder after the cycle-resolution
loop; the whole block is skipped when nothing was unresolved (line 220). -/
def cycleRelaxed (nodes : List LNode) (edges : List LEdge) :
    List (String × Nat) × List String :=
  let st := bfsStateOf nodes edges
  let un := unresolvedOf (nodesByIdOf nodes) st.layer
  match un with
  | [] => (st.layer, [])
  | _ :: _ => relaxLoop (adjStateOf nodes edges).incoming (un.length + 1) st.layer un

/-- Nodes still unresolved after the predecessor-relaxation loop (pure
cycles with no resolved predecessor), which receive trailing layers. -/
def trailingUnresolvedOf (nodes : List LNode) (edges : List LEdge) :
    List String :=
  (cycleRelaxed nodes edges).2

/-- Complete layer assignment (lines 169-246): relaxation layers, then
predecessor relaxation, then trailing layers `startLayer + index` for the
remainder sorted by the stable comparator (lines 238-245). -/
def finalLayers (nodes : List LNode) (edges : List LEdge) :
    List (String × Nat) :=
  let r := cycleRelaxed nodes edges
  match r.2 with
  | [] => r.1
  | _ :: _ =>
    let usedLayers := r.1.map Prod.snd
    let startLayer :=
      match usedLayers with
      | [] => 0
      | _ :: _ => (usedLayers.foldl max 0) + 1
    let sortedUn := sortByCmp (compareNodes (nodesByIdOf nodes)) r.2
    sortedUn.enum.foldl (fun m p => mapSet m p.2 (startLayer + p.1)) r.1

/-- Grouping of nodes by assigned layer value, iterating the layer map in
insertion order (lines 248-255); layers are natural numbers, hence always
finite, so the `Number.isFinite` guard is the identity. -/
def layersByValueOf (layer : List (String × Nat)) :
    List (Nat × List String) :=
  layer.foldl
    (fun g p => mapSet g p.2 ((mapGet g p.2).getD [] ++ [p.1])) []

/-- Ascending numeric sort of the distinct layer values (line 257). -/
def sortedLayerValuesOf (groups : List (Nat × List String)) : List Nat :=
  (groups.map Prod.fst).mergeSort fun a b => decide (a ≤ b)

/-- Barycenter average of the already-assigned within-layer orders of the
given nodes (lines 261-270), as an exact rational. -/
def averageOrder (owl : List (String × Nat)) (ids : List String) :
    Option ℚ :=
  let values := ids.filterMap fun id => mapGet owl id
  match values with
  | [] => none
  | _ :: _ => some (((values.foldl (· + ·) 0 : Nat) : ℚ) / values.length)

/-- Forward-sweep comparator (lines 274-291): average predecessor order
when both averages exist and differ by more than `0.001`, presence of
predecessors next, stable comparator last. -/
def cmpForward (nodesById : List (String × LNode))
    (incoming : List (String × List String)) (owl : List (String × Nat))
    (a b : String) : Ordering :=
  let pa := averageOrder owl ((mapGet incoming a).getD [])
  let pb := averageOrder owl ((mapGet incoming b).getD [])
  match pa, pb with
  | some x, some y =>
    if (1 : ℚ) / 1000 < |x - y| then (if x < y then .lt else .gt)
    else compareNodes nodesById a b
  | some _, none => .lt
  | none, some _ => .gt
  | none, none => compareNodes nodesById a b

/-- Backward-sweep comparator (lines 306-324): same shape as the forward
comparator but over successor orders. -/
def cmpBackward (nodesById : List (String × LNode))
    (adjacency : List (String × List String)) (owl : List (String × Nat))
    (a b : String) : Ordering :=
  let ca := averageOrder owl ((mapGet adjacency a).getD [])
  let cb := averageOrder owl ((mapGet adjacency b).getD [])
  match ca, cb with
  | some x, some y =>
    if (1 : ℚ) / 1000 < |x - y| then (if x < y then .lt else .gt)
    else compareNodes nodesById a b
  | some _, none => .lt
  | none, some _ => .gt
  | none, none => compareNodes nodesById a b

/-- Forward barycenter sweep (lines 272-298): each layer (in ascending
value order) is sorted by the stable comparator, re-sorted by the forward
comparator against the orders assigned so far, and its nodes receive their
new within-layer orders. -/
def forwardSweep (nodesById : List (String × LNode))
    (incoming : List (String × List String))
    (groups : List (Nat × List String)) (sortedVals : List Nat) :
    List (String × Nat) × List (Nat × List String) :=
  sortedVals.foldl
    (fun acc v =>
      let base := sortByCmp (compareNodes nodesById) ((mapGet groups v).getD [])
      let ids1 := sortByCmp (cmpForward nodesById incoming acc.1) base
      let owl1 := ids1.enum.foldl (fun m p => mapSet m p.2 p.1) acc.1
      (owl1, acc.2 ++ [(v, ids1)]))
    ([], [])

/-- Backward barycenter sweep (lines 300-329): layers from the
second-to-last down to the first are re-sorted by the backward comparator
and the within-layer orders updated in place. -/
def backwardSweep (nodesById : List (String × LNode))
    (adjacency : List (String × List String))
    (owl0 : List (String × Nat)) (layers0 : List (Nat × List String)) :
    List (String × Nat) × List (Nat × List String) :=
  ((List.range (layers0.length - 1)).reverse).foldl
    (fun acc i =>
      match acc.2.get? i with
      | none => acc
      | some li =>
        let ids1 := sortByCmp (cmpBackward nodesById adjacency acc.1) li.2
        let owl1 := ids1.enum.foldl (fun m p => mapSet m p.2 p.1) acc.1
        (owl1, acc.2.set i (li.1, ids1)))
    (owl0, layers0)

/-- Coordinate assignment (lines 331-370): columns at
`baseX + column * columnGap`; within a column, each node's `y` is the
maximum of the average of its already-placed parents, the snapped slot
`baseY + index * rowGap`, and a minimum separation
`priorY + rowGap * 0.8` from the previous node of the column. -/
def coordinatesOf (nodesById : List (String × LNode))
    (incoming : List (String × List String))
    (layers : List (Nat × List String)) : List PositionedNode :=
  (layers.enum.foldl
    (fun (acc : List PositionedNode × List (String × ℚ)) col =>
      let inner := col.2.2.enum.foldl
        (fun (st : (List PositionedNode × List (String × ℚ)) × ℚ) p =>
          let nodeId := p.2
          let parents := (mapGet incoming nodeId).getD []
          let parentPositions := parents.filterMap fun q => mapGet st.1.2 q
          let idealY : ℚ :=
            match parentPositions with
            | [] => 120 + p.1 * 160
            | _ :: _ =>
              (parentPositions.foldl (· + ·) 0) / parentPositions.length
          let minimumY : ℚ := st.2 + 160 * (4 / 5)
          let snappedY : ℚ := 120 + p.1 * 160
          let finalY := max idealY (max snappedY minimumY)
          let lbl := match mapGet nodesById nodeId with
            | some n => n.label
            | none => nodeId
          let svc := match mapGet nodesById nodeId with
            | some n => n.service
            | none => "Unknown"
          ((st.1.1 ++ [⟨nodeId, lbl, svc, 80 + col.1 * 320, finalY⟩],
            mapSet st.1.2 nodeId finalY), finalY))
        ((acc.1, acc.2), (120 : ℚ) - 160)
      inner.1)
    ([], [])).1

/-- Embedding of `buildHeuristicLayout` (`src/index.js` lines 143-373):
positioned nodes plus the untouched edge list. -/
def buildHeuristicLayout (nodes : List LNode) (edges : List LEdge) :
    List PositionedNode × List LEdge :=
  let nodesById := nodesByIdOf nodes
  let adj := adjStateOf nodes edges
  let layer := finalLayers nodes edges
  let groups := layersByValueOf layer
  let sortedVals := sortedLayerValuesOf groups
  let fw := forwardSweep nodesById adj.incoming groups sortedVals
  let bw := backwardSweep nodesById adj.adjacency fw.1 fw.2
  (coordinatesOf nodesById adj.incoming bw.2, edges)

/-- Successor list of a node in the built adjacency map
(`adjacency.get(nodeId) || []`). -/
def succsOf (adjacency : List (String × List String)) (u : String) :
    List String :=
  (mapGet adjacency u).getD []

/-- Number of edges into `t` whose source is not yet visited, summed over
the adjacency entries (used to state the meaning of the in-degree
counters). -/
def pendingIn (adjacency : List (String × List String))
    (visited : List String) (t : String) : Int :=
  match adjacency with
  | [] => 0
  | (u, succs) :: rest =>
    (if u ∈ visited then 0 else (succs.count t : Int)) +
      pendingIn rest visited t

/-- Invariant of the zero-in-degree relaxation loop: visited and queued
nodes are layered, every adjacency edge out of a visited node strictly
increases the layer, the queue is duplicate-free and disjoint from the
visited set, predecessors of visited nodes are visited, the in-degree
counter of every node counts its edges from unvisited sources, and queued
nodes have non-positive counters. -/
structure KahnInv (adjacency : List (String × List String))
    (st : BfsState) : Prop where
  layeredVisited : ∀ u ∈ st.visited, (mapGet st.layer u).isSome
  layeredQueued : ∀ q ∈ st.queue, (mapGet st.layer q).isSome
  edgeMono : ∀ u ∈ st.visited, ∀ t ∈ succsOf adjacency u,
    ∃ lu lt, mapGet st.layer u = some lu ∧ mapGet st.layer t = some lt ∧
      lu < lt
  disjoint : ∀ q ∈ st.queue, q ∉ st.visited
  queueNodup : st.queue.Nodup
  predsVisited : ∀ x ∈ st.visited, ∀ u, x ∈ succsOf adjacency u →
    u ∈ st.visited
  indegCount : ∀ t, ((mapGet st.indeg t).getD 0 : Int) =
    pendingIn adjacency st.visited t
  queueZero : ∀ q ∈ st.queue, ((mapGet st.indeg q).getD 0 : Int) ≤ 0

/-- Invariant carried through the relaxation of the successor list of the
node `v` just dequeued (layer `Lv`, full successor list `S`, remaining
suffix `rest`). -/
structure RelaxFoldInv (adjacency : List (String × List String))
    (v : String) (Lv : Nat) (S : List String) (st : BfsState)
    (rest : List String) : Prop where
  layeredVisited : ∀ u ∈ st.visited, (mapGet st.layer u).isSome
  layeredQueued : ∀ q ∈ st.queue, (mapGet st.layer q).isSome
  edgeMonoOld : ∀ u ∈ st.visited, u ≠ v → ∀ t ∈ succsOf adjacency u,
    ∃ lu lt, mapGet st.layer u = some lu ∧ mapGet st.layer t = some lt ∧
      lu < lt
  edgeMonoNew : ∀ t ∈ S, t ∈ rest ∨
    ∃ lt, mapGet st.layer t = some lt ∧ Lv < lt
  layerV : mapGet st.layer v = some Lv
  visitedV : v ∈ st.visited
  disjoint : ∀ q ∈ st.queue, q ∉ st.visited
  queueNodup : st.queue.Nodup
  predsVisited : ∀ x ∈ st.visited, ∀ u, x ∈ succsOf adjacency u →
    u ∈ st.visited
  indegCount : ∀ t, ((mapGet st.indeg t).getD 0 : Int) =
    pendingIn adjacency st.visited t + (rest.count t : Int)
  queueZero : ∀ q ∈ st.queue, ((mapGet st.indeg q).getD 0 : Int) ≤ 0
  visitedNotS : ∀ u ∈ st.visited, u ∉ S
  restSubS : ∀ t ∈ rest, t ∈ S

/-! ## Theorems -/

theorem mapGet_append_some {α : Type} {m₁ : List (String × α)}
    (m₂ : List (String × α)) {k : String} {v : α}
    (h : mapGet m₁ k = some v) : mapGet (m₁ ++ m₂) k = some v := by
  induction m₁ with
  | nil => simp [mapGet] at h
  | cons p rest ih =>
    rw [List.cons_append]
    rw [mapGet] at h ⊢
    by_cases hk : p.1 = k
    · simpa [hk] using h
    · rw [if_neg hk] at h ⊢
      exact ih h

theorem mapGet_append_none {α : Type} {m₁ : List (String × α)}
    (m₂ : List (String × α)) {k : String}
    (h : mapGet m₁ k = none) : mapGet (m₁ ++ m₂) k = mapGet m₂ k := by
  induction m₁ with
  | nil => simp
  | cons p rest ih =>
    rw [mapGet] at h
    rw [List.cons_append, mapGet]
    by_cases hk : p.1 = k
    · rw [if_pos hk] at h; exact absurd h (by simp)
    · rw [if_neg hk] at h ⊢
      exact ih h

theorem mapSet_absent {α : Type} {m : List (String × α)} {k : String}
    (v : α) (h : mapGet m k = none) : mapSet m k v = m ++ [(k, v)] := by
  induction m with
  | nil => rfl
  | cons p rest ih =>
    rw [mapGet] at h
    rw [mapSet, List.cons_append]
    by_cases hk : p.1 = k
    · rw [if_pos hk] at h; exact absurd h (by simp)
    · rw [if_neg hk] at h
      rw [if_neg hk, ih h]

theorem storedKey_normalizeEdge (e : EdgeInput) :
    storedKey (normalizeEdge e) = edgeKey e := by
  cases e with
  | mk s t ty =>
    cases ty with
    | none => rfl
    | some v =>
      by_cases hv : v = "" <;> simp [storedKey, edgeKey, normalizeEdge, hv]

theorem WF_addNode {b : Builder} (hb : b.WF) (n : NodeInput) {nd : Node}
    {b₂ : Builder} (h : b.addNode n = .ok (nd, b₂)) : b₂.WF := by
  unfold Builder.addNode at h
  by_cases h0 : n.id = ""
  · rw [if_pos h0] at h; exact absurd h (by simp)
  · rw [if_neg h0] at h
    cases hget : mapGet b.nodeIndex n.id with
    | some existing =>
      rw [hget] at h
      simp only [Except.ok.injEq, Prod.mk.injEq] at h
      rw [← h.2]
      exact hb
    | none =>
      rw [hget] at h
      simp only [Except.ok.injEq, Prod.mk.injEq] at h
      obtain ⟨hnd, hb2⟩ := h
      set nn : Node :=
        { id := n.id, label := n.label.getD n.id, service := n.service.getD "Unknown" } with hnn
      have hidnotin : n.id ∉ b.nodes.map Node.id := by
        intro hmem
        obtain ⟨x, hx, hxid⟩ := List.mem_map.mp hmem
        have := hb.indexComplete x hx
        rw [hxid] at this
        rw [hget] at this
        exact absurd this (by simp)
      refine ⟨?_, ?_, ?_, ?_, ?_⟩
      · rw [← hb2]
        simp only [List.map_append, List.map_cons, List.map_nil]
        rw [List.nodup_append]
        refine ⟨hb.nodesNodup, List.nodup_singleton _, ?_⟩
        intro x hx hx2
        simp only [List.mem_singleton] at hx2
        subst hx2
        exact hidnotin hx
      · intro x hx
        rw [← hb2] at hx ⊢
        simp only
        rw [mapSet_absent _ hget]
        rcases List.mem_append.mp hx with hx1 | hx2
        · exact mapGet_append_some _ (hb.indexComplete x hx1)
        · simp only [List.mem_singleton] at hx2
          subst hx2
          rw [mapGet_append_none _ hget]
          simp [mapGet]
      · intro i x hx
        rw [← hb2] at hx ⊢
        simp only at hx ⊢
        rw [mapSet_absent _ hget] at hx
        cases hget2 : mapGet b.nodeIndex i with
        | some y =>
          rw [mapGet_append_some _ hget2] at hx
          obtain ⟨hmem, hid⟩ := hb.indexSound i x (by rw [hget2, ← hx])
          exact ⟨List.mem_append.mpr (Or.inl hmem), hid⟩
        | none =>
          rw [mapGet_append_none _ hget2] at hx
          rw [mapGet] at hx
          by_cases hik : n.id = i
          · rw [if_pos hik] at hx
            simp only [Option.some.injEq] at hx
            subst hx
            exact ⟨List.mem_append.mpr (Or.inr (by simp)), by rw [← hik]⟩
          · rw [if_neg hik] at hx
            simp [mapGet] at hx
      · rw [← hb2]; exact hb.edgeKeysNodup
      · rw [← hb2]; exact hb.edgeKeysMem

theorem WF_addEdge {b : Builder} (hb : b.WF) (e : EdgeInput) :
    (b.addEdge e).WF := by
  unfold Builder.addEdge
  by_cases h0 : e.source = "" ∨ e.target = ""
  · rw [if_pos h0]; exact hb
  · rw [if_neg h0]
    by_cases h1 : edgeKey e ∈ b.edgeIndex
    · simp only [h1, if_true]; exact hb
    · simp only [h1, if_false]
      have hkeynotin : edgeKey e ∉ b.edges.map storedKey := by
        intro hmem
        obtain ⟨x, hx, hxk⟩ := List.mem_map.mp hmem
        exact h1 (hxk ▸ hb.edgeKeysMem x hx)
      refine ⟨hb.nodesNodup, hb.indexComplete, hb.indexSound, ?_, ?_⟩
      · simp only [List.map_append, List.map_cons, List.map_nil]
        rw [List.nodup_append]
        refine ⟨hb.edgeKeysNodup, List.nodup_singleton _, ?_⟩
        intro x hx hx2
        simp only [List.mem_singleton] at hx2
        subst hx2
        rw [storedKey_normalizeEdge] at hx
        exact hkeynotin hx
      · intro x hx
        rcases List.mem_append.mp hx with hx1 | hx2
        · exact List.mem_append.mpr (Or.inl (hb.edgeKeysMem x hx1))
        · simp only [List.mem_singleton] at hx2
          subst hx2
          rw [storedKey_normalizeEdge]
          exact List.mem_append.mpr (Or.inr (by simp))

theorem WF_applyOp {b : Builder} (hb : b.WF) (op : GraphOp) :
    (b.applyOp op).WF := by
  cases op with
  | node n =>
    simp only [Builder.applyOp]
    cases h : b.addNode n with
    | ok r =>
      cases r with
      | mk nd b₂ =>
        simp only
        exact WF_addNode hb n h
    | error _ => exact hb
  | edge e => exact WF_addEdge hb e

theorem WF_applyOps {b : Builder} (hb : b.WF) (ops : List GraphOp) :
    (b.applyOps ops).WF := by
  induction ops generalizing b with
  | nil => exact hb
  | cons op rest ih => exact ih (WF_applyOp hb op)

theorem WF_empty : Builder.empty.WF := by
  refine ⟨?_, ?_, ?_, ?_, ?_⟩ <;> simp [Builder.empty, mapGet]

/-- C10: after any finite sequence of `addNode`/`addEdge` operations from
an empty `GraphBuilder`, node ids are pairwise distinct, the node index
maps each id to the unique stored node with that id, and the stored edges
have pairwise distinct `(source, target, type)` triples. -/
theorem graphBuilder_uniqueness_invariant (ops : List GraphOp) :
    ((Builder.empty.applyOps ops).nodes.map Node.id).Nodup ∧
    ((Builder.empty.applyOps ops).edges.map storedTriple).Nodup ∧
    (∀ i nd, mapGet (Builder.empty.applyOps ops).nodeIndex i = some nd ↔
      (nd ∈ (Builder.empty.applyOps ops).nodes ∧ nd.id = i)) := by
  have hwf : (Builder.empty.applyOps ops).WF := WF_applyOps WF_empty ops
  refine ⟨hwf.nodesNodup, ?_, ?_⟩
  · have hkeys := hwf.edgeKeysNodup
    have hcompose :
        (Builder.empty.applyOps ops).edges.map storedKey =
          ((Builder.empty.applyOps ops).edges.map storedTriple).map
            (fun t => t.1 ++ "|" ++ t.2.1 ++ "|" ++ t.2.2.getD "") := by
      rw [List.map_map]
      rfl
    rw [hcompose] at hkeys
    exact List.Nodup.of_map _ hkeys
  · intro i nd
    constructor
    · exact hwf.indexSound i nd
    · rintro ⟨hmem, hid⟩
      rw [← hid]
      exact hwf.indexComplete nd hmem

theorem nodeIndex_mono_applyOp {b : Builder} {i : String} {nd : Node}
    (h : mapGet b.nodeIndex i = some nd) (op : GraphOp) :
    mapGet (b.applyOp op).nodeIndex i = some nd := by
  cases op with
  | node n =>
    simp only [Builder.applyOp]
    unfold Builder.addNode
    by_cases h0 : n.id = ""
    · rw [if_pos h0]; exact h
    · rw [if_neg h0]
      cases hget : mapGet b.nodeIndex n.id with
      | some existing => exact h
      | none =>
        simp only
        rw [mapSet_absent _ hget]
        exact mapGet_append_some _ h
  | edge e =>
    simp only [Builder.applyOp]
    unfold Builder.addEdge
    by_cases h0 : e.source = "" ∨ e.target = ""
    · rw [if_pos h0]; exact h
    · rw [if_neg h0]
      by_cases h1 : edgeKey e ∈ b.edgeIndex
      · simp only [h1, if_true]; exact h
      · simp only [h1, if_false]; exact h

theorem nodeIndex_mono_applyOps {b : Builder} {i : String} {nd : Node}
    (h : mapGet b.nodeIndex i = some nd) (ops : List GraphOp) :
    mapGet (b.applyOps ops).nodeIndex i = some nd := by
  induction ops generalizing b with
  | nil => exact h
  | cons op rest ih => exact ih (nodeIndex_mono_applyOp h op)

/-- C5: `addNode` is idempotent with first-writer-wins semantics.  After a
first insertion of id `c₁.id` (normalizing candidate `c₁`) and any further
operations, a later `addNode` with a candidate `c₂` carrying the same id
returns the node produced by the first insertion — with `c₁`'s label and
service, regardless of `c₂`'s — and leaves the whole state (in particular
the node list) unchanged. -/
theorem addNode_first_writer_wins (pre post : List GraphOp)
    (c₁ c₂ : NodeInput) (hid : c₁.id ≠ "") (heq : c₂.id = c₁.id)
    (habsent : mapGet (Builder.empty.applyOps pre).nodeIndex c₁.id = none) :
    (((Builder.empty.applyOps pre).applyOp (.node c₁)).applyOps post).addNode c₂ =
      .ok ({ id := c₁.id, label := c₁.label.getD c₁.id,
             service := c₁.service.getD "Unknown" },
           ((Builder.empty.applyOps pre).applyOp (.node c₁)).applyOps post) := by
  set b₀ := Builder.empty.applyOps pre with hb₀
  set nn : Node :=
    { id := c₁.id, label := c₁.label.getD c₁.id,
      service := c₁.service.getD "Unknown" } with hnn
  have hstep : mapGet (b₀.applyOp (.node c₁)).nodeIndex c₁.id = some nn := by
    simp only [Builder.applyOp]
    unfold Builder.addNode
    rw [if_neg hid, habsent]
    simp only
    rw [mapSet_absent _ habsent, mapGet_append_none _ habsent]
    simp [mapGet]
  have hfinal := nodeIndex_mono_applyOps hstep post
  unfold Builder.addNode
  rw [heq, if_neg hid, hfinal]

/-- Closed witness for `addNode_first_writer_wins`. -/
theorem addNode_first_writer_wins_witness :
    ("a" : String) ≠ "" ∧ ("a" : String) = "a" ∧
      mapGet (Builder.empty.applyOps []).nodeIndex "a" = none ∧
      (((Builder.empty.applyOps []).applyOp
            (.node ⟨"a", some "L1", some "S1"⟩)).applyOps []).addNode
          ⟨"a", some "L2", none⟩ =
        .ok ({ id := "a", label := "L1", service := "S1" },
             ((Builder.empty.applyOps []).applyOp
                (.node ⟨"a", some "L1", some "S1"⟩)).applyOps []) :=
  ⟨by decide, rfl, by decide,
    addNode_first_writer_wins [] [] ⟨"a", some "L1", some "S1"⟩
      ⟨"a", some "L2", none⟩ (by decide) rfl (by decide)⟩

/-- C1 counterexample: `addEdge` does not check that the endpoints are ids
of previously inserted nodes.  On an empty store (no nodes at all) an edge
between two unknown ids is appended, contradicting the claim that such an
edge is rejected and the edge list left unchanged. -/
theorem addEdge_unknown_endpoints_counterexample :
    Builder.empty.nodes = [] ∧
      (Builder.empty.addEdge ⟨"a", "b", some "uses"⟩).edges =
        [⟨"a", "b", some "uses"⟩] := by
  constructor <;> rfl

/-- C1 amended: `addEdge` silently no-ops (state unchanged, no error)
exactly when the candidate's source or target field is absent, or when the
`(source, target, type)` key is already present; membership of the
endpoints in the node list is never consulted, so an edge whose endpoints
are unknown ids is appended whenever its key is new. -/
theorem addEdge_checks_fields_not_endpoints (b : Builder) (e : EdgeInput) :
    (b.addEdge e).nodes = b.nodes ∧
      (b.addEdge e).edges =
        (if e.source = "" ∨ e.target = "" ∨ edgeKey e ∈ b.edgeIndex then b.edges
         else b.edges ++ [normalizeEdge e]) := by
  constructor
  · unfold Builder.addEdge
    by_cases h0 : e.source = "" ∨ e.target = ""
    · rw [if_pos h0]
    · rw [if_neg h0]
      by_cases h1 : edgeKey e ∈ b.edgeIndex
      · simp only [h1, if_true]
      · simp only [h1, if_false]
  · unfold Builder.addEdge
    by_cases h0 : e.source = "" ∨ e.target = ""
    · rw [if_pos h0, if_pos (h0.imp id Or.inl)]
    · rw [if_neg h0]
      by_cases h1 : edgeKey e ∈ b.edgeIndex
      · simp only [h1, if_true]
        rw [if_pos (by tauto)]
      · simp only [h1, if_false]
        rw [if_neg (by tauto)]

/-- C3 counterexample: on `arn:aws:s3:::bucket` the resource portion is
`bucket` (no `/`, no `:`), and `parseArn` sets `resourceId` to the whole
resource but `resourceType` to the empty string — not to the resource as
the claim states. -/
theorem parseArn_plain_resource_counterexample :
    (parseArn "arn:aws:s3:::bucket").map
        (fun r => (r.resource, r.resourceType, r.resourceId)) =
      some ("bucket", "", "bucket") ∧ ("" : String) ≠ "bucket" := by
  constructor
  · decide
  · decide

/-- C3 amended: when the resource portion contains neither `/` nor `:`,
`parseArn` sets `resourceId` to the whole resource portion and leaves
`resourceType` as the empty string. -/
theorem parseArn_plain_resource (arn : String) (r : ParsedArn)
    (h : parseArn arn = some r)
    (h1 : strContains r.resource '/' = false)
    (h2 : strContains r.resource ':' = false) :
    r.resourceType = "" ∧ r.resourceId = r.resource := by
  unfold parseArn at h
  by_cases ha : listStartsWith "arn:".data arn.data = false
  · rw [if_pos ha] at h
    exact absurd h (by simp)
  · rw [if_neg ha] at h
    by_cases hl : (splitString ':' arn).length < 6
    · rw [if_pos hl] at h
      exact absurd h (by simp)
    · rw [if_neg hl] at h
      simp only [Option.some.injEq] at h
      subst h
      simp only at h1 h2 ⊢
      simp only [h1, h2]
      simp

/-- Closed witness for `parseArn_plain_resource`. -/
theorem parseArn_plain_resource_witness :
    ∃ r, parseArn "arn:aws:s3:::bucket" = some r ∧
      strContains r.resource '/' = false ∧ strContains r.resource ':' = false ∧
      r.resourceType = "" ∧ r.resourceId = r.resource := by
  have hp : ∃ r, parseArn "arn:aws:s3:::bucket" = some r := by
    refine ⟨?_, ?_⟩
    · exact
        { arn := "arn:aws:s3:::bucket", partition := "aws", service := "s3"
          region := "", accountId := "", resource := "bucket"
          resourceType := "", resourceId := "bucket" }
    · decide
  obtain ⟨r, hr⟩ := hp
  have h1 : strContains r.resource '/' = false := by
    have : r.resource = "bucket" := by
      have hone : parseArn "arn:aws:s3:::bucket" = some
          { arn := "arn:aws:s3:::bucket", partition := "aws", service := "s3"
            region := "", accountId := "", resource := "bucket"
            resourceType := "", resourceId := "bucket" } := by decide
      rw [hr] at hone
      simp only [Option.some.injEq] at hone
      rw [hone]
    rw [this]
    decide
  have h2 : strContains r.resource ':' = false := by
    have : r.resource = "bucket" := by
      have hone : parseArn "arn:aws:s3:::bucket" = some
          { arn := "arn:aws:s3:::bucket", partition := "aws", service := "s3"
            region := "", accountId := "", resource := "bucket"
            resourceType := "", resourceId := "bucket" } := by decide
      rw [hr] at hone
      simp only [Option.some.injEq] at hone
      rw [hone]
    rw [this]
    decide
  have := parseArn_plain_resource "arn:aws:s3:::bucket" r hr h1 h2
  exact ⟨r, hr, h1, h2, this.1, this.2⟩

/-- C2 counterexample: in a concrete completed run the recorded step list
is `[authentication, codeAnalysis, resourceDiscovery]` — the
resource-discovery step does NOT precede the code-analysis step,
contradicting the claimed order. -/
theorem validationSteps_order_counterexample :
    (buildAwsGraphSteps (.completed "arn:aws:iam::111122223333:user/dev"
          "us-east-1" 1 ⟨1, 1, 0, 0, 0⟩ 3)).map ValidationStep.action =
        ["authentication", "codeAnalysis", "resourceDiscovery"] ∧
      ¬ ((buildAwsGraphSteps (.completed "arn:aws:iam::111122223333:user/dev"
              "us-east-1" 1 ⟨1, 1, 0, 0, 0⟩ 3)).findIdx
            (fun s => s.action == "resourceDiscovery") <
          (buildAwsGraphSteps (.completed "arn:aws:iam::111122223333:user/dev"
              "us-east-1" 1 ⟨1, 1, 0, 0, 0⟩ 3)).findIdx
            (fun s => s.action == "codeAnalysis")) := by
  constructor
  · rfl
  · decide

/-- C2 amended: for every run completing without a fatal error the
recorded actions are, in order, authentication, then code analysis, then
resource discovery: authentication precedes both other steps, but the
code-analysis step precedes the resource-discovery summary step (which is
appended last even though resource discovery is performed first). -/
theorem validationSteps_order (idArn region : String) (fnCount : Nat)
    (stats : InvocationStats) (nodeCount : Nat) :
    (buildAwsGraphSteps (.completed idArn region fnCount stats nodeCount)).map
        ValidationStep.action =
      ["authentication", "codeAnalysis", "resourceDiscovery"] := rfl

/-- C7: with a non-empty function list, the code-analysis step has status
`failure` iff every attempted package failed; with fewer failures than
attempts the status is `success` and a non-zero failure count appears as a
dedicated part of the step's `;`-joined message. -/
theorem codeAnalysisStep_status (stats : InvocationStats)
    (h : 0 < stats.attempted) :
    ((codeAnalysisStep stats).status = "failure" ↔
        stats.failures = stats.attempted) ∧
      (stats.failures < stats.attempted →
        (codeAnalysisStep stats).status = "success" ∧
        (stats.failures ≠ 0 →
          (toString stats.failures ++ " package(s) failed to analyze") ∈
              codeAnalysisMessageParts stats ∧
            (codeAnalysisStep stats).message =
              joinString "; " (codeAnalysisMessageParts stats) ++ ".")) := by
  constructor
  · unfold codeAnalysisStep
    by_cases hf : stats.failures = stats.attempted
    · rw [if_pos ⟨h, hf⟩]
      simp [hf]
    · rw [if_neg (by tauto)]
      constructor
      · intro hcontra
        have hss : ("success" : String) = "failure" := hcontra
        exact absurd hss (by decide)
      · intro hff
        exact absurd hff hf
  · intro hlt
    constructor
    · unfold codeAnalysisStep
      rw [if_neg (by omega)]
    · intro hnz
      constructor
      · unfold codeAnalysisMessageParts
        refine List.mem_append.mpr (Or.inr ?_)
        rw [if_pos hnz]
        simp
      · rfl

/-- Closed witness for `codeAnalysisStep_status`. -/
theorem codeAnalysisStep_status_witness :
    0 < (3 : Nat) ∧
      (((codeAnalysisStep ⟨3, 2, 2, 1, 0⟩).status = "failure" ↔
          (2 : Nat) = 3) ∧
        ((2 : Nat) < 3 →
          (codeAnalysisStep ⟨3, 2, 2, 1, 0⟩).status = "success" ∧
          ((2 : Nat) ≠ 0 →
            (toString (2 : Nat) ++ " package(s) failed to analyze") ∈
                codeAnalysisMessageParts ⟨3, 2, 2, 1, 0⟩ ∧
              (codeAnalysisStep ⟨3, 2, 2, 1, 0⟩).message =
                joinString "; " (codeAnalysisMessageParts ⟨3, 2, 2, 1, 0⟩) ++ "."))) :=
  ⟨by decide, codeAnalysisStep_status ⟨3, 2, 2, 1, 0⟩ (by decide)⟩

theorem mapGet_nil {α : Type} (k : String) :
    mapGet ([] : List (String × α)) k = none := rfl

theorem mapGet_cons {α : Type} (k₁ : String) (v : α) (m : List (String × α))
    (k : String) :
    mapGet ((k₁, v) :: m) k = if k₁ = k then some v else mapGet m k := rfl

/-- C6 counterexample: an entry whose content is
`FunctionName: "FunctionName: "B"` contains the literal text
`FunctionName: "B"`, yet the scan extracts the name `FunctionName: `
(the lazy quote match closes at the quote before `B`), so no
`A → B` invokes edge is added even though `B` is a known function with a
distinct identifier. -/
theorem invokes_literal_counterexample :
    containsSub "FunctionName: \"B\"".data
        "FunctionName: \"FunctionName: \"B\"".data = true ∧
      (Edge.mk "arn:aws:lambda:us-east-1:111122223333:function:A"
          "arn:aws:lambda:us-east-1:111122223333:function:B" (some "invokes")) ∉
        (processInvocationTargets
          (Builder.empty.applyOps
            [.node ⟨"arn:aws:lambda:us-east-1:111122223333:function:A", some "A", some "Lambda"⟩,
             .node ⟨"arn:aws:lambda:us-east-1:111122223333:function:B", some "B", some "Lambda"⟩])
          ⟨"arn:aws:lambda:us-east-1:111122223333:function:A", "A"⟩
          [⟨"index.js", "FunctionName: \"FunctionName: \"B\""⟩]
          (lambdaIndexByArn
            [⟨"arn:aws:lambda:us-east-1:111122223333:function:A", "A"⟩,
             ⟨"arn:aws:lambda:us-east-1:111122223333:function:B", "B"⟩])
          (lambdaIndexByName
            [⟨"arn:aws:lambda:us-east-1:111122223333:function:A", "A"⟩,
             ⟨"arn:aws:lambda:us-east-1:111122223333:function:B", "B"⟩])).edges := by
  constructor
  · decide
  · decide

/-- C6 amended: when the `FunctionName` pattern scan of a surviving entry
of function `A`'s package extracts the name `B` — as it does when the
entry content is the plain literal `FunctionName: "B"`, though not under
every occurrence of that literal as a substring — code analysis adds the
edge `A → B` of type `invokes`; when the extracted name is `A` itself the
self reference is suppressed and no edge is added.  Stated for two known
functions named `A` and `B` with arbitrary distinct non-empty ARNs. -/
theorem invokes_literal_edge (arnA arnB : String)
    (hA : arnA ≠ "") (hB : arnB ≠ "") (hAB : arnA ≠ arnB) :
    findLambdaInvocationTargets [⟨"index.js", "FunctionName: \"B\""⟩] =
        [⟨.name, "B"⟩] ∧
      (processInvocationTargets
          (Builder.empty.applyOps
            [.node ⟨arnA, some "A", some "Lambda"⟩,
             .node ⟨arnB, some "B", some "Lambda"⟩])
          ⟨arnA, "A"⟩ [⟨"index.js", "FunctionName: \"B\""⟩]
          (lambdaIndexByArn [⟨arnA, "A"⟩, ⟨arnB, "B"⟩])
          (lambdaIndexByName [⟨arnA, "A"⟩, ⟨arnB, "B"⟩])).edges =
        [⟨arnA, arnB, some "invokes"⟩] ∧
      findLambdaInvocationTargets [⟨"index.js", "FunctionName: \"A\""⟩] =
        [⟨.name, "A"⟩] ∧
      (processInvocationTargets
          (Builder.empty.applyOps
            [.node ⟨arnA, some "A", some "Lambda"⟩,
             .node ⟨arnB, some "B", some "Lambda"⟩])
          ⟨arnA, "A"⟩ [⟨"index.js", "FunctionName: \"A\""⟩]
          (lambdaIndexByArn [⟨arnA, "A"⟩, ⟨arnB, "B"⟩])
          (lambdaIndexByName [⟨arnA, "A"⟩, ⟨arnB, "B"⟩])).edges = [] := by
  have hBA : arnB ≠ arnA := Ne.symm hAB
  have htargetsB : findLambdaInvocationTargets
      [⟨"index.js", "FunctionName: \"B\""⟩] = [⟨.name, "B"⟩] := by decide
  have htargetsA : findLambdaInvocationTargets
      [⟨"index.js", "FunctionName: \"A\""⟩] = [⟨.name, "A"⟩] := by decide
  have hbyName : lambdaIndexByName [⟨arnA, "A"⟩, ⟨arnB, "B"⟩] =
      [("A", ⟨arnA, "A"⟩), ("B", ⟨arnB, "B"⟩)] := by
    simp [lambdaIndexByName, mapSet]
  have hb0 : Builder.empty.applyOps
      [.node ⟨arnA, some "A", some "Lambda"⟩,
       .node ⟨arnB, some "B", some "Lambda"⟩] =
      ⟨[⟨arnA, "A", "Lambda"⟩, ⟨arnB, "B", "Lambda"⟩], [],
       [(arnA, ⟨arnA, "A", "Lambda"⟩), (arnB, ⟨arnB, "B", "Lambda"⟩)], []⟩ := by
    simp only [Builder.applyOps, List.foldl, Builder.applyOp, Builder.addNode,
      Builder.empty]
    rw [if_neg hA]
    rw [if_neg hB]
    simp [mapGet, mapSet, hAB]
  have hresolveB : resolveLambdaTarget ⟨.name, "B"⟩
      (lambdaIndexByArn [⟨arnA, "A"⟩, ⟨arnB, "B"⟩])
      (lambdaIndexByName [⟨arnA, "A"⟩, ⟨arnB, "B"⟩]) = some ⟨arnB, "B"⟩ := by
    rw [hbyName]
    simp only [resolveLambdaTarget]
    have hTrim : strTrim "B" = "B" := by decide
    rw [hTrim]
    rw [if_neg (by decide : ¬("B" : String) = "")]
    simp only [mapGet_cons, mapGet_nil]
    simp [hB]
  have hresolveA : resolveLambdaTarget ⟨.name, "A"⟩
      (lambdaIndexByArn [⟨arnA, "A"⟩, ⟨arnB, "B"⟩])
      (lambdaIndexByName [⟨arnA, "A"⟩, ⟨arnB, "B"⟩]) = some ⟨arnA, "A"⟩ := by
    rw [hbyName]
    simp only [resolveLambdaTarget]
    have hTrim : strTrim "A" = "A" := by decide
    rw [hTrim]
    rw [if_neg (by decide : ¬("A" : String) = "")]
    simp only [mapGet_cons, mapGet_nil]
    simp [hA]
  refine ⟨htargetsB, ?_, htargetsA, ?_⟩
  · unfold processInvocationTargets
    rw [htargetsB, hb0]
    simp only [List.foldl, hresolveB]
    simp [Builder.addNode, Builder.addEdge, mapGet, hAB, hA, hB, hBA,
      normalizeEdge, edgeKey]
  · unfold processInvocationTargets
    rw [htargetsA, hb0]
    simp only [List.foldl, hresolveA]
    simp [hA]

/-- Closed witness for `invokes_literal_edge`. -/
theorem invokes_literal_edge_witness :
    ("arn:aws:lambda:us-east-1:111122223333:function:A" : String) ≠ "" ∧
      ("arn:aws:lambda:us-east-1:111122223333:function:B" : String) ≠ "" ∧
      ("arn:aws:lambda:us-east-1:111122223333:function:A" : String) ≠
        "arn:aws:lambda:us-east-1:111122223333:function:B" ∧
      (processInvocationTargets
          (Builder.empty.applyOps
            [.node ⟨"arn:aws:lambda:us-east-1:111122223333:function:A", some "A", some "Lambda"⟩,
             .node ⟨"arn:aws:lambda:us-east-1:111122223333:function:B", some "B", some "Lambda"⟩])
          ⟨"arn:aws:lambda:us-east-1:111122223333:function:A", "A"⟩
          [⟨"index.js", "FunctionName: \"B\""⟩]
          (lambdaIndexByArn
            [⟨"arn:aws:lambda:us-east-1:111122223333:function:A", "A"⟩,
             ⟨"arn:aws:lambda:us-east-1:111122223333:function:B", "B"⟩])
          (lambdaIndexByName
            [⟨"arn:aws:lambda:us-east-1:111122223333:function:A", "A"⟩,
             ⟨"arn:aws:lambda:us-east-1:111122223333:function:B", "B"⟩])).edges =
        [⟨"arn:aws:lambda:us-east-1:111122223333:function:A",
          "arn:aws:lambda:us-east-1:111122223333:function:B", some "invokes"⟩] :=
  ⟨by decide, by decide, by decide,
    (invokes_literal_edge "arn:aws:lambda:us-east-1:111122223333:function:A"
      "arn:aws:lambda:us-east-1:111122223333:function:B"
      (by decide) (by decide) (by decide)).2.1⟩

/-- C9: `describeArn` always returns a node whose `id` is exactly the raw
input string, whether or not the string parses as an ARN. -/
theorem describeArn_id_is_raw (s : String) : (describeArn s).id = s := by
  unfold describeArn
  cases parseArn s <;> rfl

theorem mapGet_mapSet {κ α : Type} [DecidableEq κ] (m : List (κ × α))
    (k k' : κ) (v : α) :
    mapGet (mapSet m k v) k' = if k = k' then some v else mapGet m k' := by
  induction m with
  | nil =>
    simp [mapSet, mapGet]
  | cons p rest ih =>
    rw [mapSet]
    by_cases hk : p.1 = k
    · rw [if_pos hk, mapGet, mapGet]
      by_cases hk' : k = k'
      · rw [if_pos hk', if_pos hk']
      · rw [if_neg hk', if_neg hk', if_neg (hk ▸ hk')]
    · rw [if_neg hk, mapGet, mapGet]
      by_cases hk' : p.1 = k'
      · rw [if_pos hk', if_pos hk']
        rw [if_neg ?_]
        intro he
        exact hk (he ▸ hk')
      · rw [if_neg hk', if_neg hk']
        exact ih

theorem keys_mapSet_of_isSome {κ α : Type} [DecidableEq κ]
    {m : List (κ × α)} {k : κ} (v : α) (h : (mapGet m k).isSome) :
    (mapSet m k v).map Prod.fst = m.map Prod.fst := by
  induction m with
  | nil => simp [mapGet] at h
  | cons p rest ih =>
    rw [mapGet] at h
    rw [mapSet]
    by_cases hk : p.1 = k
    · rw [if_pos hk]
      simp [hk]
    · rw [if_neg hk] at h ⊢
      simp [ih h]

theorem keys_mapSet_of_isNone {κ α : Type} [DecidableEq κ]
    {m : List (κ × α)} {k : κ} (v : α) (h : (mapGet m k).isNone) :
    (mapSet m k v).map Prod.fst = m.map Prod.fst ++ [k] := by
  induction m with
  | nil => simp [mapSet]
  | cons p rest ih =>
    rw [mapGet] at h
    rw [mapSet]
    by_cases hk : p.1 = k
    · rw [if_pos hk] at h
      simp at h
    · rw [if_neg hk] at h ⊢
      simp [ih h]

theorem mapGet_isSome_iff_mem_keys {κ α : Type} [DecidableEq κ]
    (m : List (κ × α)) (k : κ) :
    (mapGet m k).isSome ↔ k ∈ m.map Prod.fst := by
  induction m with
  | nil => simp [mapGet]
  | cons p rest ih =>
    rw [mapGet]
    by_cases hk : p.1 = k
    · simp [hk]
    · rw [if_neg hk]
      simp only [List.map_cons, List.mem_cons]
      rw [ih]
      constructor
      · exact Or.inr
      · rintro (h1 | h2)
        · exact absurd h1.symm hk
        · exact h2

theorem keysNodup_mapSet {κ α : Type} [DecidableEq κ]
    {m : List (κ × α)} (k : κ) (v : α) (h : (m.map Prod.fst).Nodup) :
    ((mapSet m k v).map Prod.fst).Nodup := by
  cases hg : mapGet m k with
  | some w =>
    rw [keys_mapSet_of_isSome v (by simp [hg])]
    exact h
  | none =>
    rw [keys_mapSet_of_isNone v (by simp [hg])]
    rw [List.nodup_append]
    refine ⟨h, List.nodup_singleton _, ?_⟩
    intro x hx hx2
    simp only [List.mem_singleton] at hx2
    subst hx2
    have hs := (mapGet_isSome_iff_mem_keys m x).mpr hx
    rw [hg] at hs
    simp at hs

theorem mapGet_of_mem_keysNodup {κ α : Type} [DecidableEq κ]
    {m : List (κ × α)} {k : κ} {v : α} (hnd : (m.map Prod.fst).Nodup)
    (h : (k, v) ∈ m) : mapGet m k = some v := by
  induction m with
  | nil => simp at h
  | cons p rest ih =>
    rcases List.mem_cons.mp h with h1 | h2
    · rw [← h1, mapGet, if_pos rfl]
    · rw [mapGet]
      by_cases hk : p.1 = k
      · exfalso
        simp only [List.map_cons, List.nodup_cons] at hnd
        exact hnd.1 (hk ▸ List.mem_map_of_mem Prod.fst h2)
      · rw [if_neg hk]
        exact ih (by simp only [List.map_cons, List.nodup_cons] at hnd; exact hnd.2) h2

/-- C4 counterexample: in the graph `x → a → b → c → a` every node ends up
resolved (the trailing-unresolved remainder is empty), yet the cycle edge
`c → a` has its target on layer 1 and its source on layer 3: the layering
invariant fails on an edge not incident to any trailing-unresolved node,
because `a` received a layer during relaxation without ever being
dequeued. -/
theorem layering_counterexample :
    (⟨"c", "a"⟩ : LEdge) ∈
        ([⟨"x", "a"⟩, ⟨"a", "b"⟩, ⟨"b", "c"⟩, ⟨"c", "a"⟩] : List LEdge) ∧
      trailingUnresolvedOf
          [⟨"x", "x", "S"⟩, ⟨"a", "a", "S"⟩, ⟨"b", "b", "S"⟩, ⟨"c", "c", "S"⟩]
          [⟨"x", "a"⟩, ⟨"a", "b"⟩, ⟨"b", "c"⟩, ⟨"c", "a"⟩] = [] ∧
      mapGet (finalLayers
          [⟨"x", "x", "S"⟩, ⟨"a", "a", "S"⟩, ⟨"b", "b", "S"⟩, ⟨"c", "c", "S"⟩]
          [⟨"x", "a"⟩, ⟨"a", "b"⟩, ⟨"b", "c"⟩, ⟨"c", "a"⟩]) "c" = some 3 ∧
      mapGet (finalLayers
          [⟨"x", "x", "S"⟩, ⟨"a", "a", "S"⟩, ⟨"b", "b", "S"⟩, ⟨"c", "c", "S"⟩]
          [⟨"x", "a"⟩, ⟨"a", "b"⟩, ⟨"b", "c"⟩, ⟨"c", "a"⟩]) "a" = some 1 ∧
      ¬ (3 : Nat) < 1 := by
  refine ⟨by decide, by decide, by decide, by decide, by decide⟩

theorem pendingIn_nonneg (adj : List (String × List String))
    (vis : List String) (t : String) : 0 ≤ pendingIn adj vis t := by
  induction adj with
  | nil => simp [pendingIn]
  | cons p rest ih =>
    cases p with
    | mk u s =>
      rw [pendingIn]
      have h1 : (0 : Int) ≤ if u ∈ vis then 0 else (s.count t : Int) := by
        by_cases hu : u ∈ vis
        · simp [hu]
        · simp [hu]
      omega

theorem pendingIn_congr (adj : List (String × List String))
    {vis₁ vis₂ : List String} (h : ∀ u, u ∈ vis₁ ↔ u ∈ vis₂) (t : String) :
    pendingIn adj vis₁ t = pendingIn adj vis₂ t := by
  induction adj with
  | nil => rfl
  | cons p rest ih =>
    cases p with
    | mk u s =>
      rw [pendingIn, pendingIn, ih]
      by_cases hu : u ∈ vis₁
      · rw [if_pos hu, if_pos ((h u).mp hu)]
      · rw [if_neg hu, if_neg (fun hc => hu ((h u).mpr hc))]

theorem pendingIn_cons_notin (adj : List (String × List String))
    {v : String} (hv : v ∉ adj.map Prod.fst) (vis : List String)
    (t : String) :
    pendingIn adj (v :: vis) t = pendingIn adj vis t := by
  induction adj with
  | nil => rfl
  | cons p rest ih =>
    cases p with
    | mk u s =>
      simp only [List.map_cons, List.mem_cons] at hv
      push_neg at hv
      rw [pendingIn, pendingIn, ih hv.2]
      have hu : (u ∈ v :: vis) ↔ u ∈ vis := by
        simp only [List.mem_cons]
        constructor
        · rintro (h1 | h2)
          · exact absurd h1.symm hv.1
          · exact h2
        · exact Or.inr
      by_cases hm : u ∈ vis
      · rw [if_pos hm, if_pos (hu.mpr hm)]
      · rw [if_neg hm, if_neg (fun hc => hm (hu.mp hc))]

theorem pendingIn_insert {adj : List (String × List String)}
    (hnd : (adj.map Prod.fst).Nodup) {v : String} {vis : List String}
    (hv : v ∉ vis) (t : String) :
    pendingIn adj (v :: vis) t =
      pendingIn adj vis t - ((succsOf adj v).count t : Int) := by
  induction adj with
  | nil => simp [pendingIn, succsOf, mapGet]
  | cons p rest ih =>
    cases p with
    | mk u s =>
      simp only [List.map_cons, List.nodup_cons] at hnd
      rw [pendingIn, pendingIn]
      by_cases hu : u = v
      · subst hu
        rw [succsOf, mapGet, if_pos rfl]
        simp only [Option.getD_some]
        rw [if_pos (List.mem_cons_self _ _), if_neg hv]
        rw [pendingIn_cons_notin rest hnd.1 vis t]
        omega
      · rw [succsOf, mapGet, if_neg hu]
        have hm : (u ∈ v :: vis) ↔ u ∈ vis := by
          simp only [List.mem_cons]
          constructor
          · rintro (h1 | h2)
            · exact absurd h1 hu
            · exact h2
          · exact Or.inr
        rw [ih hnd.2]
        rw [succsOf]
        by_cases hmem : u ∈ vis
        · rw [if_pos (hm.mpr hmem), if_pos hmem]
          omega
        · rw [if_neg (fun hc => hmem (hm.mp hc)), if_neg hmem]
          omega

theorem pendingIn_zero_preds {adj : List (String × List String)}
    {vis : List String} {x : String} (h : pendingIn adj vis x ≤ 0) :
    ∀ u, x ∈ succsOf adj u → u ∈ vis := by
  induction adj with
  | nil =>
    intro u hu
    simp [succsOf, mapGet] at hu
  | cons p rest ih =>
    cases p with
    | mk w s =>
      rw [pendingIn] at h
      have hrest : pendingIn rest vis x ≤ 0 := by
        have h1 : (0 : Int) ≤ if w ∈ vis then 0 else (s.count x : Int) := by
          by_cases hw : w ∈ vis
          · simp [hw]
          · simp [hw]
        omega
      intro u hu
      rw [succsOf, mapGet] at hu
      by_cases hw : w = u
      · rw [if_pos hw] at hu
        simp only [Option.getD_some] at hu
        by_cases hwv : w ∈ vis
        · exact hw ▸ hwv
        · exfalso
          rw [if_neg hwv] at h
          have hc : 1 ≤ (s.count x : Int) := by
            have := List.count_pos_iff.mpr hu
            omega
          have := pendingIn_nonneg rest vis x
          omega
      · rw [if_neg hw] at hu
        exact ih hrest u (by rw [succsOf]; exact hu)

theorem relax_visited (c : Nat) (st : BfsState) (t : String) :
    (relaxNeighbor c st t).visited = st.visited := by
  unfold relaxNeighbor
  rfl

theorem relax_layer_other {t x : String} (h : t ≠ x) (c : Nat)
    (st : BfsState) :
    mapGet (relaxNeighbor c st t).layer x = mapGet st.layer x := by
  unfold relaxNeighbor
  simp only
  cases hg : mapGet st.layer t with
  | none =>
    simp only
    rw [mapGet_mapSet, if_neg h]
  | some e =>
    simp only
    by_cases he : e < c + 1
    · rw [if_pos he, mapGet_mapSet, if_neg h]
    · rw [if_neg he]

theorem relax_layer_target (c : Nat) (st : BfsState) (t : String) :
    ∃ l, mapGet (relaxNeighbor c st t).layer t = some l ∧ c < l ∧
      ∀ l₀, mapGet st.layer t = some l₀ → l₀ ≤ l := by
  unfold relaxNeighbor
  simp only
  cases hg : mapGet st.layer t with
  | none =>
    simp only
    refine ⟨c + 1, ?_, by omega, ?_⟩
    · rw [mapGet_mapSet, if_pos rfl]
    · intro l₀ h₀
      exact absurd h₀ (by simp)
  | some e =>
    simp only
    by_cases he : e < c + 1
    · rw [if_pos he]
      refine ⟨c + 1, ?_, by omega, ?_⟩
      · rw [mapGet_mapSet, if_pos rfl]
      · intro l₀ h₀
        simp only [Option.some.injEq] at h₀
        omega
    · rw [if_neg he]
      refine ⟨e, hg, by omega, ?_⟩
      intro l₀ h₀
      simp only [Option.some.injEq] at h₀
      omega

theorem relax_layer_mono {x : String} {l : Nat}
    (h : mapGet st.layer x = some l) (c : Nat) (t : String) :
    ∃ l₁, mapGet (relaxNeighbor c st t).layer x = some l₁ ∧ l ≤ l₁ := by
  by_cases hx : t = x
  · subst hx
    obtain ⟨l₁, h₁, _, h₃⟩ := relax_layer_target c st t
    exact ⟨l₁, h₁, h₃ l h⟩
  · exact ⟨l, by rw [relax_layer_other hx, h], le_refl l⟩

theorem relax_layer_isSome {x : String}
    (h : (mapGet st.layer x).isSome) (c : Nat) (t : String) :
    (mapGet (relaxNeighbor c st t).layer x).isSome := by
  obtain ⟨l, hl⟩ := Option.isSome_iff_exists.mp h
  obtain ⟨l₁, h₁, _⟩ := relax_layer_mono hl c t
  simp [h₁]

theorem relax_indeg_target (c : Nat) (st : BfsState) (t : String) :
    mapGet (relaxNeighbor c st t).indeg t =
      some ((mapGet st.indeg t).getD 0 - 1) := by
  unfold relaxNeighbor
  simp only
  rw [mapGet_mapSet, if_pos rfl]

theorem relax_indeg_other {t x : String} (h : t ≠ x) (c : Nat)
    (st : BfsState) :
    mapGet (relaxNeighbor c st t).indeg x = mapGet st.indeg x := by
  unfold relaxNeighbor
  simp only
  rw [mapGet_mapSet, if_neg h]

theorem relax_queue (c : Nat) (st : BfsState) (t : String) :
    (relaxNeighbor c st t).queue =
      if (mapGet st.indeg t).getD 0 - 1 = 0 ∧ t ∉ st.visited then
        st.queue ++ [t]
      else st.queue := by
  unfold relaxNeighbor
  rfl

theorem relaxFold_step {adj : List (String × List String)} {v : String}
    {Lv : Nat} {S : List String} {st : BfsState} {t0 : String}
    {rest : List String}
    (H : RelaxFoldInv adj v Lv S st (t0 :: rest)) :
    RelaxFoldInv adj v Lv S (relaxNeighbor Lv st t0) rest := by
  have ht0S : t0 ∈ S := H.restSubS t0 (List.mem_cons_self _ _)
  have ht0nv : ∀ u ∈ st.visited, u ≠ t0 := fun u hu he =>
    H.visitedNotS u hu (he ▸ ht0S)
  have ht0indeg : (1 : Int) ≤ (mapGet st.indeg t0).getD 0 := by
    have h1 := H.indegCount t0
    have h2 : 0 < (t0 :: rest).count t0 :=
      List.count_pos_iff.mpr (List.mem_cons_self t0 rest)
    have h3 := pendingIn_nonneg adj st.visited t0
    omega
  have ht0queue : t0 ∉ st.queue := by
    intro hq
    have := H.queueZero t0 hq
    omega
  have hvis : (relaxNeighbor Lv st t0).visited = st.visited :=
    relax_visited Lv st t0
  have hqeq := relax_queue Lv st t0
  constructor
  · -- layeredVisited
    intro u hu
    rw [hvis] at hu
    exact relax_layer_isSome (H.layeredVisited u hu) Lv t0
  · -- layeredQueued
    intro q hq
    rw [hqeq] at hq
    by_cases hcond : (mapGet st.indeg t0).getD 0 - 1 = 0 ∧ t0 ∉ st.visited
    · rw [if_pos hcond] at hq
      rcases List.mem_append.mp hq with h1 | h2
      · exact relax_layer_isSome (H.layeredQueued q h1) Lv t0
      · simp only [List.mem_singleton] at h2
        subst h2
        obtain ⟨l, hl, _, _⟩ := relax_layer_target Lv st q
        simp [hl]
    · rw [if_neg hcond] at hq
      exact relax_layer_isSome (H.layeredQueued q hq) Lv t0
  · -- edgeMonoOld
    intro u hu hne t ht
    rw [hvis] at hu
    obtain ⟨lu, lt, hlu, hlt, hord⟩ := H.edgeMonoOld u hu hne t ht
    have hut0 : t0 ≠ u := fun he => ht0nv u hu he.symm
    obtain ⟨lt₁, hlt₁, hle⟩ := relax_layer_mono hlt Lv t0
    refine ⟨lu, lt₁, ?_, hlt₁, by omega⟩
    rw [relax_layer_other hut0, hlu]
  · -- edgeMonoNew
    intro t ht
    rcases H.edgeMonoNew t ht with h1 | h2
    · rcases List.mem_cons.mp h1 with he | hr
      · subst he
        obtain ⟨l, hl, hlt, _⟩ := relax_layer_target Lv st t
        exact Or.inr ⟨l, hl, hlt⟩
      · exact Or.inl hr
    · obtain ⟨lt, hlt, hord⟩ := h2
      obtain ⟨lt₁, hlt₁, hle⟩ := relax_layer_mono hlt Lv t0
      exact Or.inr ⟨lt₁, hlt₁, by omega⟩
  · -- layerV
    have hvt0 : t0 ≠ v := fun he => ht0nv v H.visitedV he.symm
    rw [relax_layer_other hvt0, H.layerV]
  · -- visitedV
    rw [hvis]
    exact H.visitedV
  · -- disjoint
    intro q hq
    rw [hvis]
    rw [hqeq] at hq
    by_cases hcond : (mapGet st.indeg t0).getD 0 - 1 = 0 ∧ t0 ∉ st.visited
    · rw [if_pos hcond] at hq
      rcases List.mem_append.mp hq with h1 | h2
      · exact H.disjoint q h1
      · simp only [List.mem_singleton] at h2
        subst h2
        exact hcond.2
    · rw [if_neg hcond] at hq
      exact H.disjoint q hq
  · -- queueNodup
    rw [hqeq]
    by_cases hcond : (mapGet st.indeg t0).getD 0 - 1 = 0 ∧ t0 ∉ st.visited
    · rw [if_pos hcond]
      rw [List.nodup_append]
      exact ⟨H.queueNodup, List.nodup_singleton _, by
        intro x hx hx2
        simp only [List.mem_singleton] at hx2
        subst hx2
        exact ht0queue hx⟩
    · rw [if_neg hcond]
      exact H.queueNodup
  · -- predsVisited
    intro x hx u hu
    rw [hvis] at hx ⊢
    exact H.predsVisited x hx u hu
  · -- indegCount
    intro t
    by_cases he : t0 = t
    · subst he
      rw [relax_indeg_target]
      simp only [Option.getD_some]
      have h1 := H.indegCount t0
      have h2 : (t0 :: rest).count t0 = rest.count t0 + 1 := by
        rw [List.count_cons]
        simp
      rw [hvis]
      rw [h2] at h1
      push_cast at h1 ⊢
      omega
    · rw [relax_indeg_other he, hvis]
      have h1 := H.indegCount t
      have h2 : (t0 :: rest).count t = rest.count t := by
        have hne : ¬ t = t0 := fun hc => he hc.symm
        simp [List.count_cons, hne]
      rw [h2] at h1
      exact h1
  · -- queueZero
    intro q hq
    rw [hqeq] at hq
    by_cases hcond : (mapGet st.indeg t0).getD 0 - 1 = 0 ∧ t0 ∉ st.visited
    · rw [if_pos hcond] at hq
      rcases List.mem_append.mp hq with h1 | h2
      · have hne : t0 ≠ q := fun he => ht0queue (he ▸ h1)
        rw [relax_indeg_other hne]
        exact H.queueZero q h1
      · simp only [List.mem_singleton] at h2
        subst h2
        rw [relax_indeg_target]
        simp only [Option.getD_some]
        omega
    · rw [if_neg hcond] at hq
      by_cases hne : t0 = q
      · subst hne
        exact absurd hq ht0queue
      · rw [relax_indeg_other hne]
        exact H.queueZero q hq
  · -- visitedNotS
    intro u hu
    rw [hvis] at hu
    exact H.visitedNotS u hu
  · -- restSubS
    intro t ht
    exact H.restSubS t (List.mem_cons_of_mem _ ht)

theorem relaxFold_run {adj : List (String × List String)} {v : String}
    {Lv : Nat} {S : List String} :
    ∀ (rest : List String) (st : BfsState),
      RelaxFoldInv adj v Lv S st rest →
      RelaxFoldInv adj v Lv S (rest.foldl (relaxNeighbor Lv) st) [] := by
  intro rest
  induction rest with
  | nil => intro st H; exact H
  | cons t0 rest ih =>
    intro st H
    rw [List.foldl_cons]
    exact ih _ (relaxFold_step H)

theorem kahnInv_bfsStep {adj : List (String × List String)}
    (hnd : (adj.map Prod.fst).Nodup) {st : BfsState}
    (H : KahnInv adj st) : KahnInv adj (bfsStep adj st) := by
  cases hq : st.queue with
  | nil =>
    unfold bfsStep
    rw [hq]
    exact H
  | cons v rest =>
    unfold bfsStep
    rw [hq]
    simp only
    have hvq : v ∈ st.queue := by rw [hq]; exact List.mem_cons_self _ _
    have hvnotvis : v ∉ st.visited := H.disjoint v hvq
    obtain ⟨lv, hlv⟩ := Option.isSome_iff_exists.mp (H.layeredQueued v hvq)
    rw [hlv]
    simp only [Option.getD_some]
    have hvzero : pendingIn adj st.visited v ≤ 0 := by
      have h1 := H.queueZero v hvq
      have h2 := H.indegCount v
      omega
    have hpredsv : ∀ u, v ∈ succsOf adj u → u ∈ st.visited :=
      pendingIn_zero_preds hvzero
    have hrestq : ∀ q ∈ rest, q ∈ st.queue := by
      intro q hqr
      rw [hq]
      exact List.mem_cons_of_mem _ hqr
    have hvrest : v ∉ rest := by
      have := H.queueNodup
      rw [hq] at this
      exact (List.nodup_cons.mp this).1
    have Hstart : RelaxFoldInv adj v lv (succsOf adj v)
        ⟨rest, st.visited ++ [v], st.layer, st.indeg⟩ (succsOf adj v) := by
      constructor
      · intro u hu
        rcases List.mem_append.mp hu with h1 | h2
        · exact H.layeredVisited u h1
        · simp only [List.mem_singleton] at h2
          subst h2
          simp [hlv]
      · intro q hqr
        exact H.layeredQueued q (hrestq q hqr)
      · intro u hu hne t ht
        rcases List.mem_append.mp hu with h1 | h2
        · exact H.edgeMono u h1 t ht
        · simp only [List.mem_singleton] at h2
          exact absurd h2 hne
      · intro t ht
        exact Or.inl ht
      · exact hlv
      · exact List.mem_append.mpr (Or.inr (by simp))
      · intro q hqr
        intro hc
        rcases List.mem_append.mp hc with h1 | h2
        · exact H.disjoint q (hrestq q hqr) h1
        · simp only [List.mem_singleton] at h2
          subst h2
          exact hvrest hqr
      · have := H.queueNodup
        rw [hq] at this
        exact (List.nodup_cons.mp this).2
      · intro x hx u hu
        rcases List.mem_append.mp hx with h1 | h2
        · exact List.mem_append.mpr (Or.inl (H.predsVisited x h1 u hu))
        · simp only [List.mem_singleton] at h2
          subst h2
          exact List.mem_append.mpr (Or.inl (hpredsv u hu))
      · intro t
        have hcongr : ∀ u, u ∈ st.visited ++ [v] ↔ u ∈ v :: st.visited := by
          intro u
          simp [List.mem_append, List.mem_cons, or_comm]
        have h1 : pendingIn adj (st.visited ++ [v]) t =
            pendingIn adj (v :: st.visited) t :=
          pendingIn_congr adj hcongr t
        have h2 := pendingIn_insert hnd hvnotvis t
        have h3 := H.indegCount t
        simp only
        rw [h1, h2]
        omega
      · intro q hqr
        exact H.queueZero q (hrestq q hqr)
      · intro u hu hus
        rcases List.mem_append.mp hu with h1 | h2
        · exact hvnotvis (H.predsVisited u h1 v hus)
        · simp only [List.mem_singleton] at h2
          subst h2
          exact hvnotvis (hpredsv u hus)
      · intro t ht
        exact ht
    have F := relaxFold_run (succsOf adj v)
      ⟨rest, st.visited ++ [v], st.layer, st.indeg⟩ Hstart
    constructor
    · exact F.layeredVisited
    · exact F.layeredQueued
    · intro u hu t ht
      by_cases hne : u = v
      · subst hne
        rcases F.edgeMonoNew t ht with h1 | h2
        · simp at h1
        · obtain ⟨lt, hlt, hord⟩ := h2
          exact ⟨lv, lt, F.layerV, hlt, hord⟩
      · exact F.edgeMonoOld u hu hne t ht
    · exact F.disjoint
    · exact F.queueNodup
    · exact F.predsVisited
    · intro t
      have := F.indegCount t
      simpa using this
    · exact F.queueZero

theorem kahnInv_bfsRun {adj : List (String × List String)}
    (hnd : (adj.map Prod.fst).Nodup) :
    ∀ (fuel : Nat) (st : BfsState), KahnInv adj st →
      KahnInv adj (bfsRun adj fuel st) := by
  intro fuel
  induction fuel with
  | zero => intro st H; exact H
  | succ n ih =>
    intro st H
    rw [bfsRun]
    cases hq : st.queue with
    | nil => exact H
    | cons v rest => exact ih _ (kahnInv_bfsStep hnd H)

theorem mem_mapSet {κ α : Type} [DecidableEq κ] {m : List (κ × α)}
    {k : κ} {v : α} : ∀ p ∈ mapSet m k v, p = (k, v) ∨ p ∈ m := by
  induction m with
  | nil =>
    intro p hp
    simp [mapSet] at hp
    simp [hp]
  | cons q rest ih =>
    intro p hp
    rw [mapSet] at hp
    by_cases hk : q.1 = k
    · rw [if_pos hk] at hp
      rcases List.mem_cons.mp hp with h1 | h2
      · exact Or.inl h1
      · exact Or.inr (List.mem_cons_of_mem _ h2)
    · rw [if_neg hk] at hp
      rcases List.mem_cons.mp hp with h1 | h2
      · exact Or.inr (h1 ▸ List.mem_cons_self _ _)
      · rcases ih p h2 with h3 | h4
        · exact Or.inl h3
        · exact Or.inr (List.mem_cons_of_mem _ h4)

theorem pendingIn_mapSet_append (adj : List (String × List String))
    (s x : String) (vis : List String) (t : String) :
    pendingIn (mapSet adj s ((mapGet adj s).getD [] ++ [x])) vis t =
      pendingIn adj vis t +
        (if s ∈ vis then 0 else (([x].count t : Nat) : Int)) := by
  induction adj with
  | nil =>
    simp only [mapGet, Option.getD_none, List.nil_append, mapSet, pendingIn]
    by_cases hs : s ∈ vis
    · simp [hs]
    · simp [hs]
  | cons p rest ih =>
    cases p with
    | mk u su =>
      rw [mapGet]
      by_cases hu : u = s
      · rw [if_pos hu]
        simp only [Option.getD_some]
        rw [mapSet, if_pos hu, pendingIn, pendingIn]
        subst hu
        have hcnt : ((su ++ [x]).count t : Int) =
            (su.count t : Int) + ([x].count t : Int) := by
          rw [List.count_append]
          push_cast
          ring
        by_cases hs : u ∈ vis
        · rw [if_pos hs, if_pos hs, if_pos hs]
          omega
        · rw [if_neg hs, if_neg hs, if_neg hs]
          omega
      · rw [if_neg hu]
        rw [mapSet, if_neg hu, pendingIn, pendingIn]
        rw [ih]
        omega

theorem pendingIn_all_nil {adj : List (String × List String)}
    (h : ∀ p ∈ adj, p.2 = ([] : List String)) (vis : List String)
    (t : String) : pendingIn adj vis t = 0 := by
  induction adj with
  | nil => rfl
  | cons p rest ih =>
    cases p with
    | mk u su =>
      rw [pendingIn]
      have hsu : su = [] := h (u, su) (List.mem_cons_self _ _)
      subst hsu
      rw [ih fun p hp => h p (List.mem_cons_of_mem _ hp)]
      simp

theorem adjInit_props (nodes : List LNode) :
    ∀ st : AdjState,
      ((∀ t, ((mapGet st.indegree t).getD 0 : Int) = 0) ∧
        (∀ p ∈ st.adjacency, p.2 = ([] : List String)) ∧
        (st.adjacency.map Prod.fst).Nodup ∧
        (st.indegree.map Prod.fst).Nodup) →
      ((∀ t, ((mapGet (nodes.foldl
          (fun st n =>
            ⟨mapSet st.adjacency n.id [], mapSet st.incoming n.id [],
             mapSet st.indegree n.id 0⟩) st).indegree t).getD 0 : Int) = 0) ∧
        (∀ p ∈ (nodes.foldl
          (fun st n =>
            ⟨mapSet st.adjacency n.id [], mapSet st.incoming n.id [],
             mapSet st.indegree n.id 0⟩) st).adjacency, p.2 = ([] : List String)) ∧
        ((nodes.foldl
          (fun st n =>
            ⟨mapSet st.adjacency n.id [], mapSet st.incoming n.id [],
             mapSet st.indegree n.id 0⟩) st).adjacency.map Prod.fst).Nodup ∧
        ((nodes.foldl
          (fun st n =>
            ⟨mapSet st.adjacency n.id [], mapSet st.incoming n.id [],
             mapSet st.indegree n.id 0⟩) st).indegree.map Prod.fst).Nodup) := by
  induction nodes with
  | nil => intro st h; exact h
  | cons n rest ih =>
    intro st h
    rw [List.foldl_cons]
    refine ih _ ⟨?_, ?_, ?_, ?_⟩
    · intro t
      simp only
      rw [mapGet_mapSet]
      by_cases hk : n.id = t
      · rw [if_pos hk]; rfl
      · rw [if_neg hk]; exact h.1 t
    · intro p hp
      simp only at hp
      rcases mem_mapSet p hp with h1 | h2
      · rw [h1]
      · exact h.2.1 p h2
    · exact keysNodup_mapSet _ _ h.2.2.1
    · exact keysNodup_mapSet _ _ h.2.2.2

theorem adjStateOf_props (nodes : List LNode) (edges : List LEdge) :
    (∀ t, ((mapGet (adjStateOf nodes edges).indegree t).getD 0 : Int) =
        pendingIn (adjStateOf nodes edges).adjacency [] t) ∧
      ((adjStateOf nodes edges).adjacency.map Prod.fst).Nodup ∧
      ((adjStateOf nodes edges).indegree.map Prod.fst).Nodup := by
  have hinit := adjInit_props nodes ⟨[], [], []⟩
    ⟨by intro t; simp [mapGet], by intro p hp; simp at hp, by simp, by simp⟩
  have hinit0 : ∀ t, ((mapGet (adjInit nodes).indegree t).getD 0 : Int) =
      pendingIn (adjInit nodes).adjacency [] t := by
    intro t
    unfold adjInit
    rw [pendingIn_all_nil hinit.2.1]
    exact hinit.1 t
  unfold adjStateOf
  have main : ∀ (l : List LEdge) (st : AdjState),
      ((∀ t, ((mapGet st.indegree t).getD 0 : Int) =
          pendingIn st.adjacency [] t) ∧
        (st.adjacency.map Prod.fst).Nodup ∧
        (st.indegree.map Prod.fst).Nodup) →
      ((∀ t, ((mapGet (l.foldl (adjStep (nodesByIdOf nodes)) st).indegree t).getD 0 : Int) =
          pendingIn (l.foldl (adjStep (nodesByIdOf nodes)) st).adjacency [] t) ∧
        ((l.foldl (adjStep (nodesByIdOf nodes)) st).adjacency.map Prod.fst).Nodup ∧
        ((l.foldl (adjStep (nodesByIdOf nodes)) st).indegree.map Prod.fst).Nodup) := by
    intro l
    induction l with
    | nil => intro st h; exact h
    | cons e rest ih =>
      intro st h
      rw [List.foldl_cons]
      refine ih _ ?_
      unfold adjStep
      by_cases hskip : (mapGet (nodesByIdOf nodes) e.source).isNone ∨
          (mapGet (nodesByIdOf nodes) e.target).isNone
      · rw [if_pos hskip]
        exact h
      · rw [if_neg hskip]
        refine ⟨?_, keysNodup_mapSet _ _ h.2.1, keysNodup_mapSet _ _ h.2.2⟩
        intro t
        simp only
        rw [mapGet_mapSet, pendingIn_mapSet_append]
        by_cases hk : e.target = t
        · subst hk
          rw [if_pos rfl]
          simp only [Option.getD_some]
          have h1 := h.1 e.target
          have hcnt : (([e.target].count e.target : Nat) : Int) = 1 := by simp
          rw [if_neg (by simp)]
          omega
        · rw [if_neg hk]
          have h1 := h.1 t
          have hcnt : (([e.target].count t : Nat) : Int) = 0 := by
            have hne : ¬ t = e.target := fun hc => hk hc.symm
            simp [List.count_singleton, hne]
          rw [if_neg (by simp)]
          omega
  exact main edges (adjInit nodes) ⟨hinit0, hinit.2.2.1, hinit.2.2.2⟩

theorem set0_preserve {acc : List (String × Nat)} {q : String}
    (h : mapGet acc q = some 0) (l : List String) :
    mapGet (l.foldl (fun m id => mapSet m id 0) acc) q = some 0 := by
  induction l generalizing acc with
  | nil => exact h
  | cons x xs ih =>
    rw [List.foldl_cons]
    refine ih ?_
    rw [mapGet_mapSet]
    by_cases hx : x = q
    · rw [if_pos hx]
    · rw [if_neg hx]
      exact h

theorem mem_initialLayers {q : String} {l : List String} (h : q ∈ l)
    (acc : List (String × Nat)) :
    mapGet (l.foldl (fun m id => mapSet m id 0) acc) q = some 0 := by
  induction l generalizing acc with
  | nil => simp at h
  | cons x xs ih =>
    rw [List.foldl_cons]
    rcases List.mem_cons.mp h with h1 | h2
    · by_cases hx : q ∈ xs
      · exact ih hx _
      · refine set0_preserve ?_ xs
        rw [mapGet_mapSet, if_pos h1.symm]
    · exact ih h2 _

theorem initialQueue_indeg_zero {ind : List (String × Int)}
    (hnd : (ind.map Prod.fst).Nodup) {q : String}
    (h : q ∈ initialQueue ind) : mapGet ind q = some 0 := by
  unfold initialQueue at h
  obtain ⟨p, hp, hpq⟩ := List.mem_map.mp h
  have hmem := List.mem_filter.mp hp
  have hz : p.2 = 0 := by
    have := hmem.2
    exact of_decide_eq_true this
  have : mapGet ind p.1 = some p.2 := by
    refine mapGet_of_mem_keysNodup hnd ?_
    cases p
    exact hmem.1
  rw [← hpq, this, hz]

theorem initialQueue_nodup {ind : List (String × Int)}
    (hnd : (ind.map Prod.fst).Nodup) : (initialQueue ind).Nodup := by
  unfold initialQueue
  exact hnd.sublist ((List.filter_sublist _).map Prod.fst)

theorem kahnInv_bfsStateOf (nodes : List LNode) (edges : List LEdge) :
    KahnInv (adjStateOf nodes edges).adjacency (bfsStateOf nodes edges) := by
  obtain ⟨hcount, hndadj, hndind⟩ := adjStateOf_props nodes edges
  have hinit : KahnInv (adjStateOf nodes edges).adjacency
      ⟨initialQueue (adjStateOf nodes edges).indegree, [],
       initialLayers (initialQueue (adjStateOf nodes edges).indegree),
       (adjStateOf nodes edges).indegree⟩ := by
    constructor
    · intro u hu
      simp at hu
    · intro q hq
      simp only
      unfold initialLayers
      rw [mem_initialLayers hq]
      rfl
    · intro u hu
      simp at hu
    · intro q _
      simp
    · exact initialQueue_nodup hndind
    · intro x hx
      simp at hx
    · intro t
      exact hcount t
    · intro q hq
      simp only
      rw [initialQueue_indeg_zero hndind hq]
      simp
  unfold bfsStateOf
  exact kahnInv_bfsRun hndadj _ _ hinit

theorem succs_mono_adjStep {nb : List (String × LNode)} {st : AdjState}
    {u t : String} (h : t ∈ succsOf st.adjacency u) (e : LEdge) :
    t ∈ succsOf (adjStep nb st e).adjacency u := by
  unfold adjStep
  by_cases hskip : (mapGet nb e.source).isNone ∨ (mapGet nb e.target).isNone
  · rw [if_pos hskip]
    exact h
  · rw [if_neg hskip]
    simp only
    unfold succsOf at h ⊢
    rw [mapGet_mapSet]
    by_cases hs : e.source = u
    · rw [if_pos hs]
      simp only [Option.getD_some]
      rw [← hs] at h
      exact List.mem_append.mpr (Or.inl h)
    · rw [if_neg hs]
      exact h

theorem succs_mono_foldl {nb : List (String × LNode)} {st : AdjState}
    {u t : String} (h : t ∈ succsOf st.adjacency u) (l : List LEdge) :
    t ∈ succsOf ((l.foldl (adjStep nb) st)).adjacency u := by
  induction l generalizing st with
  | nil => exact h
  | cons e rest ih =>
    rw [List.foldl_cons]
    exact ih (succs_mono_adjStep h e)

theorem edge_in_adjacency {nodes : List LNode} {edges : List LEdge}
    {e : LEdge} (he : e ∈ edges)
    (hsrc : (mapGet (nodesByIdOf nodes) e.source).isSome)
    (htgt : (mapGet (nodesByIdOf nodes) e.target).isSome) :
    e.target ∈ succsOf (adjStateOf nodes edges).adjacency e.source := by
  unfold adjStateOf
  have main : ∀ (l : List LEdge) (st : AdjState), e ∈ l →
      e.target ∈ succsOf ((l.foldl (adjStep (nodesByIdOf nodes)) st)).adjacency
        e.source := by
    intro l
    induction l with
    | nil => intro st h; simp at h
    | cons e' rest ih =>
      intro st h
      rw [List.foldl_cons]
      rcases List.mem_cons.mp h with h1 | h2
      · subst h1
        refine succs_mono_foldl ?_ rest
        unfold adjStep
        rw [if_neg ?_]
        · simp only
          unfold succsOf
          rw [mapGet_mapSet, if_pos rfl]
          simp
        · intro hc
          rcases hc with hc | hc
          · rw [Option.isNone_iff_eq_none] at hc
            rw [hc] at hsrc
            simp at hsrc
          · rw [Option.isNone_iff_eq_none] at hc
            rw [hc] at htgt
            simp at htgt
      · exact ih _ h2
  exact main edges (adjInit nodes) he

theorem relaxPass_preserve (inc : List (String × List String)) :
    ∀ (un : List String) (layer : List (String × Nat)) (u : String),
      u ∉ un → mapGet (relaxPass inc layer un).1 u = mapGet layer u := by
  intro un
  induction un with
  | nil => intro layer u _; rfl
  | cons x xs ih =>
    intro layer u hu
    have hu1 : u ∉ xs := fun hc => hu (List.mem_cons_of_mem _ hc)
    have hu2 : x ≠ u := fun hc => hu (hc ▸ List.mem_cons_self _ _)
    rw [relaxPass]
    cases hp : ((mapGet inc x).getD []).filterMap
        (fun p => mapGet (relaxPass inc layer xs).1 p) with
    | nil =>
      exact ih layer u hu1
    | cons a as =>
      simp only
      rw [mapGet_mapSet, if_neg hu2]
      exact ih layer u hu1

theorem relaxPass_subset (inc : List (String × List String)) :
    ∀ (un : List String) (layer : List (String × Nat)) (x : String),
      x ∈ (relaxPass inc layer un).2.1 → x ∈ un := by
  intro un
  induction un with
  | nil => intro layer x h; exact absurd h (by simp [relaxPass])
  | cons y ys ih =>
    intro layer x h
    rw [relaxPass] at h
    cases hp : ((mapGet inc y).getD []).filterMap
        (fun p => mapGet (relaxPass inc layer ys).1 p) with
    | nil =>
      rw [hp] at h
      simp only at h
      rcases List.mem_cons.mp h with h1 | h2
      · exact h1 ▸ List.mem_cons_self _ _
      · exact List.mem_cons_of_mem _ (ih layer x h2)
    | cons a as =>
      rw [hp] at h
      simp only at h
      exact List.mem_cons_of_mem _ (ih layer x h)

theorem relaxLoop_preserve (inc : List (String × List String)) :
    ∀ (fuel : Nat) (layer : List (String × Nat)) (un : List String)
      (u : String), u ∉ un →
      mapGet (relaxLoop inc fuel layer un).1 u = mapGet layer u := by
  intro fuel
  induction fuel with
  | zero => intro layer un u _; rfl
  | succ n ih =>
    intro layer un u hu
    rw [relaxLoop.eq_def]
    cases un with
    | nil => rfl
    | cons x xs =>
      simp only
      by_cases hprog : (relaxPass inc layer (x :: xs)).2.2
      · rw [if_pos hprog]
        have hun1 : u ∉ (relaxPass inc layer (x :: xs)).2.1 :=
          fun hc => hu (relaxPass_subset inc _ layer u hc)
        rw [ih _ _ u hun1]
        exact relaxPass_preserve inc _ layer u hu
      · rw [if_neg hprog]
        exact relaxPass_preserve inc _ layer u hu

theorem relaxLoop_subset (inc : List (String × List String)) :
    ∀ (fuel : Nat) (layer : List (String × Nat)) (un : List String)
      (x : String), x ∈ (relaxLoop inc fuel layer un).2 → x ∈ un := by
  intro fuel
  induction fuel with
  | zero => intro layer un x h; exact h
  | succ n ih =>
    intro layer un x h
    rw [relaxLoop.eq_def] at h
    cases un with
    | nil => exact h
    | cons y ys =>
      simp only at h
      by_cases hprog : (relaxPass inc layer (y :: ys)).2.2
      · rw [if_pos hprog] at h
        exact relaxPass_subset inc _ layer x (ih _ _ x h)
      · rw [if_neg hprog] at h
        exact relaxPass_subset inc _ layer x h

theorem trailing_preserve {u : String} :
    ∀ (l : List (Nat × String)) (layer : List (String × Nat))
      (start : Nat), (∀ p ∈ l, p.2 ≠ u) →
      mapGet (l.foldl (fun m p => mapSet m p.2 (start + p.1)) layer) u =
        mapGet layer u := by
  intro l
  induction l with
  | nil => intro layer start _; rfl
  | cons p ps ih =>
    intro layer start h
    rw [List.foldl_cons]
    rw [ih _ start fun q hq => h q (List.mem_cons_of_mem _ hq)]
    rw [mapGet_mapSet, if_neg (h p (List.mem_cons_self _ _))]

theorem finalLayers_preserve {nodes : List LNode} {edges : List LEdge}
    {u : String} (h : (mapGet (bfsStateOf nodes edges).layer u).isSome) :
    mapGet (finalLayers nodes edges) u =
      mapGet (bfsStateOf nodes edges).layer u := by
  have hnotun : u ∉ unresolvedOf (nodesByIdOf nodes)
      (bfsStateOf nodes edges).layer := by
    intro hc
    unfold unresolvedOf at hc
    have := (List.mem_filter.mp hc).2
    rw [Option.isSome_iff_exists] at h
    obtain ⟨l, hl⟩ := h
    rw [hl] at this
    simp at this
  have hcr : mapGet (cycleRelaxed nodes edges).1 u =
        mapGet (bfsStateOf nodes edges).layer u ∧
      u ∉ (cycleRelaxed nodes edges).2 := by
    simp only [cycleRelaxed]
    cases hun : unresolvedOf (nodesByIdOf nodes)
        (bfsStateOf nodes edges).layer with
    | nil => exact ⟨rfl, by simp⟩
    | cons x xs =>
      simp only
      rw [hun] at hnotun
      constructor
      · exact relaxLoop_preserve _ _ _ _ u hnotun
      · intro hc
        exact hnotun (relaxLoop_subset _ _ _ _ u hc)
  simp only [finalLayers]
  cases hr : (cycleRelaxed nodes edges).2 with
  | nil =>
    simp only
    exact hcr.1
  | cons x xs =>
    simp only
    rw [trailing_preserve]
    · exact hcr.1
    · intro p hp hpu
      have hmem : p.2 ∈ sortByCmp (compareNodes (nodesByIdOf nodes)) (x :: xs) := by
        have := List.enum_map_snd (sortByCmp (compareNodes (nodesByIdOf nodes)) (x :: xs))
        rw [← this]
        exact List.mem_map_of_mem _ hp
      have hperm : List.Perm
          (sortByCmp (compareNodes (nodesByIdOf nodes)) (x :: xs))
          (x :: xs) := List.mergeSort_perm _ _
      have : p.2 ∈ (x :: xs) := hperm.mem_iff.mp hmem
      rw [hpu] at this
      rw [hr] at hcr
      exact hcr.2 this

/-- C4 amended: for every edge whose source was processed (dequeued) by
the zero-in-degree relaxation and whose endpoints are nodes of the graph,
the final layer of the target is strictly greater than the final layer of
the source.  The claimed exception set (only nodes left unresolved after
predecessor relaxation) is too small: as the counterexample shows, an
edge out of an unprocessed cycle node can point downward even though every
node got resolved, so the correct exception is the edges whose source the
relaxation never dequeued. -/
theorem layering_strict_on_visited (nodes : List LNode) (edges : List LEdge)
    (e : LEdge) (he : e ∈ edges)
    (hsrc : (mapGet (nodesByIdOf nodes) e.source).isSome)
    (htgt : (mapGet (nodesByIdOf nodes) e.target).isSome)
    (hsV : e.source ∈ (bfsStateOf nodes edges).visited) :
    ∃ ls lt, mapGet (finalLayers nodes edges) e.source = some ls ∧
      mapGet (finalLayers nodes edges) e.target = some lt ∧ ls < lt := by
  have hK := kahnInv_bfsStateOf nodes edges
  have hmem := edge_in_adjacency he hsrc htgt
  obtain ⟨ls, lt, h1, h2, h3⟩ := hK.edgeMono e.source hsV e.target hmem
  refine ⟨ls, lt, ?_, ?_, h3⟩
  · rw [finalLayers_preserve (by simp [h1]), h1]
  · rw [finalLayers_preserve (by simp [h2]), h2]

/-- Closed witness for `layering_strict_on_visited` on the diamond graph
`s → m1 → t`, `s → m2 → t`. -/
theorem layering_strict_on_visited_witness :
    (⟨"s", "m1"⟩ : LEdge) ∈
        ([⟨"s", "m1"⟩, ⟨"s", "m2"⟩, ⟨"m1", "t"⟩, ⟨"m2", "t"⟩] : List LEdge) ∧
      (mapGet (nodesByIdOf
          [⟨"s", "s", "S"⟩, ⟨"m1", "m1", "S"⟩, ⟨"m2", "m2", "S"⟩, ⟨"t", "t", "S"⟩])
          (LEdge.mk "s" "m1").source).isSome ∧
      (mapGet (nodesByIdOf
          [⟨"s", "s", "S"⟩, ⟨"m1", "m1", "S"⟩, ⟨"m2", "m2", "S"⟩, ⟨"t", "t", "S"⟩])
          (LEdge.mk "s" "m1").target).isSome ∧
      (LEdge.mk "s" "m1").source ∈ (bfsStateOf
          [⟨"s", "s", "S"⟩, ⟨"m1", "m1", "S"⟩, ⟨"m2", "m2", "S"⟩, ⟨"t", "t", "S"⟩]
          [⟨"s", "m1"⟩, ⟨"s", "m2"⟩, ⟨"m1", "t"⟩, ⟨"m2", "t"⟩]).visited ∧
      (∃ ls lt, mapGet (finalLayers
          [⟨"s", "s", "S"⟩, ⟨"m1", "m1", "S"⟩, ⟨"m2", "m2", "S"⟩, ⟨"t", "t", "S"⟩]
          [⟨"s", "m1"⟩, ⟨"s", "m2"⟩, ⟨"m1", "t"⟩, ⟨"m2", "t"⟩])
            (LEdge.mk "s" "m1").source = some ls ∧
        mapGet (finalLayers
          [⟨"s", "s", "S"⟩, ⟨"m1", "m1", "S"⟩, ⟨"m2", "m2", "S"⟩, ⟨"t", "t", "S"⟩]
          [⟨"s", "m1"⟩, ⟨"s", "m2"⟩, ⟨"m1", "t"⟩, ⟨"m2", "t"⟩])
            (LEdge.mk "s" "m1").target = some lt ∧ ls < lt) :=
  ⟨by decide, by decide, by decide, by decide,
    layering_strict_on_visited
      [⟨"s", "s", "S"⟩, ⟨"m1", "m1", "S"⟩, ⟨"m2", "m2", "S"⟩, ⟨"t", "t", "S"⟩]
      [⟨"s", "m1"⟩, ⟨"s", "m2"⟩, ⟨"m1", "t"⟩, ⟨"m2", "t"⟩]
      ⟨"s", "m1"⟩ (by decide) (by decide) (by decide) (by decide)⟩

theorem mapGet_mem {κ α : Type} [DecidableEq κ] {m : List (κ × α)}
    {k : κ} {v : α} (h : mapGet m k = some v) : (k, v) ∈ m := by
  induction m with
  | nil => simp [mapGet] at h
  | cons p rest ih =>
    rw [mapGet] at h
    by_cases hk : p.1 = k
    · rw [if_pos hk] at h
      simp only [Option.some.injEq] at h
      refine List.mem_cons.mpr (Or.inl ?_)
      rw [← h, ← hk]
    · rw [if_neg hk] at h
      exact List.mem_cons.mpr (Or.inr (ih h))

theorem isSome_mapSet_mono {κ α : Type} [DecidableEq κ] {m : List (κ × α)}
    {x : κ} (h : (mapGet m x).isSome) (k : κ) (v : α) :
    (mapGet (mapSet m k v) x).isSome := by
  rw [mapGet_mapSet]
  by_cases hk : k = x
  · rw [if_pos hk]; rfl
  · rw [if_neg hk]; exact h

theorem isSome_mapSet_self {κ α : Type} [DecidableEq κ] (m : List (κ × α))
    (k : κ) (v : α) : (mapGet (mapSet m k v) k).isSome := by
  rw [mapGet_mapSet, if_pos rfl]
  rfl

theorem nodesById_keys {nodes : List LNode} :
    ∀ (m : List (String × LNode)),
      (m.map Prod.fst ++ nodes.map LNode.id).Nodup →
      (nodes.foldl (fun m n => mapSet m n.id n) m).map Prod.fst =
        m.map Prod.fst ++ nodes.map LNode.id := by
  induction nodes with
  | nil => intro m _; simp
  | cons n rest ih =>
    intro m hnd
    rw [List.foldl_cons]
    have hfresh : (mapGet m n.id).isNone := by
      cases hc : mapGet m n.id with
      | none => rfl
      | some w =>
        exfalso
        have hs : (mapGet m n.id).isSome := by simp [hc]
        rw [mapGet_isSome_iff_mem_keys] at hs
        rw [List.nodup_append] at hnd
        exact hnd.2.2 hs (by simp)
    have hkeys := keys_mapSet_of_isNone n hfresh
    have hnd2 : ((mapSet m n.id n).map Prod.fst ++ rest.map LNode.id).Nodup := by
      rw [hkeys]
      have hperm : List.Perm (m.map Prod.fst ++ [n.id] ++ rest.map LNode.id)
          (m.map Prod.fst ++ (n.id :: rest.map LNode.id)) := by
        rw [List.append_assoc]
        exact List.Perm.append_left _ (by simp)
      refine hperm.nodup_iff.mpr ?_
      simpa using hnd
    rw [ih _ hnd2, hkeys]
    simp

theorem isSome_foldl_nodesById {x : String} :
    ∀ (l : List LNode) (m : List (String × LNode)),
      (mapGet m x).isSome →
      (mapGet (l.foldl (fun m n => mapSet m n.id n) m) x).isSome := by
  intro l
  induction l with
  | nil => intro m h; exact h
  | cons y ys ih =>
    intro m h
    rw [List.foldl_cons]
    exact ih _ (isSome_mapSet_mono h _ _)

theorem nodesById_hasAll {nodes : List LNode} {x : String}
    (h : x ∈ nodes.map LNode.id) :
    (mapGet (nodesByIdOf nodes) x).isSome := by
  unfold nodesByIdOf
  obtain ⟨n, hn, hnx⟩ := List.mem_map.mp h
  subst hnx
  have main : ∀ (l : List LNode) (m : List (String × LNode)), n ∈ l →
      (mapGet (l.foldl (fun m n => mapSet m n.id n) m) n.id).isSome := by
    intro l
    induction l with
    | nil => intro m hm; simp at hm
    | cons y ys ih =>
      intro m hm
      rw [List.foldl_cons]
      rcases List.mem_cons.mp hm with h1 | h2
      · subst h1
        exact isSome_foldl_nodesById ys _ (isSome_mapSet_self m n.id n)
      · exact ih _ h2
  exact main nodes [] hn

theorem keysNodup_initialLayers (q0 : List String) :
    ((initialLayers q0).map Prod.fst).Nodup := by
  unfold initialLayers
  have main : ∀ (l : List String) (m : List (String × Nat)),
      (m.map Prod.fst).Nodup →
      ((l.foldl (fun m id => mapSet m id 0) m).map Prod.fst).Nodup := by
    intro l
    induction l with
    | nil => intro m h; exact h
    | cons x xs ih =>
      intro m h
      rw [List.foldl_cons]
      exact ih _ (keysNodup_mapSet _ _ h)
  exact main q0 [] (by simp)

theorem relax_layer_keysNodup {st : BfsState}
    (h : (st.layer.map Prod.fst).Nodup) (c : Nat) (t : String) :
    ((relaxNeighbor c st t).layer.map Prod.fst).Nodup := by
  unfold relaxNeighbor
  simp only
  cases mapGet st.layer t with
  | none => exact keysNodup_mapSet _ _ h
  | some e =>
    simp only
    by_cases he : e < c + 1
    · rw [if_pos he]
      exact keysNodup_mapSet _ _ h
    · rw [if_neg he]
      exact h

theorem relax_layer_sub {st : BfsState} {P : String → Prop}
    (h : ∀ k, (mapGet st.layer k).isSome → P k) (c : Nat) {t : String}
    (ht : P t) :
    ∀ k, (mapGet (relaxNeighbor c st t).layer k).isSome → P k := by
  intro k hk
  by_cases hkt : t = k
  · exact hkt ▸ ht
  · rw [relax_layer_other hkt] at hk
    exact h k hk

theorem bfsStep_layer_keysNodup {adj : List (String × List String)}
    {st : BfsState} (h : (st.layer.map Prod.fst).Nodup) :
    ((bfsStep adj st).layer.map Prod.fst).Nodup := by
  unfold bfsStep
  cases st.queue with
  | nil => exact h
  | cons v rest =>
    simp only
    have main : ∀ (l : List String) (st' : BfsState),
        (st'.layer.map Prod.fst).Nodup →
        ((l.foldl (relaxNeighbor ((mapGet st.layer v).getD 0)) st').layer.map
          Prod.fst).Nodup := by
      intro l
      induction l with
      | nil => intro st' h'; exact h'
      | cons x xs ih =>
        intro st' h'
        rw [List.foldl_cons]
        exact ih _ (relax_layer_keysNodup h' _ _)
    exact main _ _ h

theorem bfsStep_layer_sub {adj : List (String × List String)}
    {st : BfsState} {P : String → Prop}
    (hadj : ∀ p ∈ adj, ∀ x ∈ p.2, P x)
    (h : ∀ k, (mapGet st.layer k).isSome → P k) :
    ∀ k, (mapGet (bfsStep adj st).layer k).isSome → P k := by
  unfold bfsStep
  cases st.queue with
  | nil => exact h
  | cons v rest =>
    simp only
    have hsuccs : ∀ x ∈ (mapGet adj v).getD [], P x := by
      intro x hx
      cases hg : mapGet adj v with
      | none =>
        rw [hg] at hx
        simp at hx
      | some s =>
        rw [hg] at hx
        simp only [Option.getD_some] at hx
        exact hadj (v, s) (mapGet_mem hg) x hx
    have main : ∀ (l : List String), (∀ x ∈ l, P x) → ∀ (st' : BfsState),
        (∀ k, (mapGet st'.layer k).isSome → P k) →
        ∀ k, (mapGet ((l.foldl (relaxNeighbor ((mapGet st.layer v).getD 0))
          st')).layer k).isSome → P k := by
      intro l
      induction l with
      | nil => intro _ st' h'; exact h'
      | cons x xs ih =>
        intro hl st' h'
        rw [List.foldl_cons]
        exact ih (fun y hy => hl y (List.mem_cons_of_mem _ hy)) _
          (relax_layer_sub h' _ (hl x (List.mem_cons_self _ _)))
    exact main _ hsuccs _ h

theorem bfsRun_layer_keysNodup {adj : List (String × List String)} :
    ∀ (fuel : Nat) (st : BfsState), (st.layer.map Prod.fst).Nodup →
      ((bfsRun adj fuel st).layer.map Prod.fst).Nodup := by
  intro fuel
  induction fuel with
  | zero => intro st h; exact h
  | succ n ih =>
    intro st h
    rw [bfsRun]
    cases st.queue with
    | nil => exact h
    | cons v rest => exact ih _ (bfsStep_layer_keysNodup h)

theorem bfsRun_layer_sub {adj : List (String × List String)}
    {P : String → Prop} (hadj : ∀ p ∈ adj, ∀ x ∈ p.2, P x) :
    ∀ (fuel : Nat) (st : BfsState),
      (∀ k, (mapGet st.layer k).isSome → P k) →
      ∀ k, (mapGet (bfsRun adj fuel st).layer k).isSome → P k := by
  intro fuel
  induction fuel with
  | zero => intro st h; exact h
  | succ n ih =>
    intro st h
    rw [bfsRun]
    cases st.queue with
    | nil => exact h
    | cons v rest => exact ih _ (bfsStep_layer_sub hadj h)

theorem relaxPass_layer_keysNodup (inc : List (String × List String)) :
    ∀ (un : List String) (layer : List (String × Nat)),
      (layer.map Prod.fst).Nodup →
      (((relaxPass inc layer un).1).map Prod.fst).Nodup := by
  intro un
  induction un with
  | nil => intro layer h; exact h
  | cons x xs ih =>
    intro layer h
    rw [relaxPass]
    cases ((mapGet inc x).getD []).filterMap
        (fun p => mapGet (relaxPass inc layer xs).1 p) with
    | nil => exact ih layer h
    | cons a as =>
      simp only
      exact keysNodup_mapSet _ _ (ih layer h)

theorem relaxPass_layer_sub (inc : List (String × List String))
    {P : String → Prop} :
    ∀ (un : List String), (∀ x ∈ un, P x) →
      ∀ (layer : List (String × Nat)),
      (∀ k, (mapGet layer k).isSome → P k) →
      ∀ k, (mapGet (relaxPass inc layer un).1 k).isSome → P k := by
  intro un
  induction un with
  | nil => intro _ layer h; exact h
  | cons x xs ih =>
    intro hun layer h
    rw [relaxPass]
    cases ((mapGet inc x).getD []).filterMap
        (fun p => mapGet (relaxPass inc layer xs).1 p) with
    | nil =>
      exact ih (fun y hy => hun y (List.mem_cons_of_mem _ hy)) layer h
    | cons a as =>
      simp only
      intro k hk
      by_cases hkx : x = k
      · exact hkx ▸ hun x (List.mem_cons_self _ _)
      · rw [mapGet_mapSet, if_neg hkx] at hk
        exact ih (fun y hy => hun y (List.mem_cons_of_mem _ hy)) layer h k hk

theorem relaxLoop_layer_keysNodup (inc : List (String × List String)) :
    ∀ (fuel : Nat) (layer : List (String × Nat)) (un : List String),
      (layer.map Prod.fst).Nodup →
      (((relaxLoop inc fuel layer un).1).map Prod.fst).Nodup := by
  intro fuel
  induction fuel with
  | zero => intro layer un h; exact h
  | succ n ih =>
    intro layer un h
    rw [relaxLoop.eq_def]
    cases un with
    | nil => exact h
    | cons x xs =>
      simp only
      by_cases hprog : (relaxPass inc layer (x :: xs)).2.2
      · rw [if_pos hprog]
        exact ih _ _ (relaxPass_layer_keysNodup inc _ layer h)
      · rw [if_neg hprog]
        exact relaxPass_layer_keysNodup inc _ layer h

theorem relaxLoop_layer_sub (inc : List (String × List String))
    {P : String → Prop} :
    ∀ (fuel : Nat) (un : List String), (∀ x ∈ un, P x) →
      ∀ (layer : List (String × Nat)),
      (∀ k, (mapGet layer k).isSome → P k) →
      ∀ k, (mapGet (relaxLoop inc fuel layer un).1 k).isSome → P k := by
  intro fuel
  induction fuel with
  | zero => intro un _ layer h; exact h
  | succ n ih =>
    intro un hun layer h
    rw [relaxLoop.eq_def]
    cases un with
    | nil => exact h
    | cons x xs =>
      simp only
      by_cases hprog : (relaxPass inc layer (x :: xs)).2.2
      · rw [if_pos hprog]
        refine ih _ ?_ _ (relaxPass_layer_sub inc _ hun layer h)
        intro y hy
        exact hun y (relaxPass_subset inc _ layer y hy)
      · rw [if_neg hprog]
        exact relaxPass_layer_sub inc _ hun layer h

theorem trailing_layer_keysNodup :
    ∀ (l : List (Nat × String)) (layer : List (String × Nat)) (s : Nat),
      (layer.map Prod.fst).Nodup →
      ((l.foldl (fun m p => mapSet m p.2 (s + p.1)) layer).map Prod.fst).Nodup := by
  intro l
  induction l with
  | nil => intro layer s h; exact h
  | cons p ps ih =>
    intro layer s h
    rw [List.foldl_cons]
    exact ih _ s (keysNodup_mapSet _ _ h)

theorem trailing_layer_sub {P : String → Prop} :
    ∀ (l : List (Nat × String)), (∀ p ∈ l, P p.2) →
      ∀ (layer : List (String × Nat)) (s : Nat),
      (∀ k, (mapGet layer k).isSome → P k) →
      ∀ k, (mapGet (l.foldl (fun m p => mapSet m p.2 (s + p.1)) layer) k).isSome →
        P k := by
  intro l
  induction l with
  | nil => intro _ layer s h; exact h
  | cons p ps ih =>
    intro hl layer s h
    rw [List.foldl_cons]
    refine ih (fun q hq => hl q (List.mem_cons_of_mem _ hq)) _ s ?_
    intro k hk
    by_cases hkp : p.2 = k
    · exact hkp ▸ hl p (List.mem_cons_self _ _)
    · rw [mapGet_mapSet, if_neg hkp] at hk
      exact h k hk

theorem adjStateOf_domains (nodes : List LNode) (edges : List LEdge) :
    (∀ p ∈ (adjStateOf nodes edges).adjacency, ∀ x ∈ p.2,
        (mapGet (nodesByIdOf nodes) x).isSome) ∧
      (∀ k, (mapGet (adjStateOf nodes edges).indegree k).isSome →
        (mapGet (nodesByIdOf nodes) k).isSome) := by
  have hinit : (∀ p ∈ (adjInit nodes).adjacency, p.2 = ([] : List String)) ∧
      (∀ k, (mapGet (adjInit nodes).indegree k).isSome →
        (mapGet (nodesByIdOf nodes) k).isSome) := by
    have main : ∀ (l : List LNode),
        (∀ n ∈ l, (mapGet (nodesByIdOf nodes) n.id).isSome) →
        ∀ (st : AdjState),
        ((∀ p ∈ st.adjacency, p.2 = ([] : List String)) ∧
          (∀ k, (mapGet st.indegree k).isSome →
            (mapGet (nodesByIdOf nodes) k).isSome)) →
        ((∀ p ∈ (l.foldl
            (fun st n =>
              ⟨mapSet st.adjacency n.id [], mapSet st.incoming n.id [],
               mapSet st.indegree n.id 0⟩) st).adjacency,
            p.2 = ([] : List String)) ∧
          (∀ k, (mapGet (l.foldl
            (fun st n =>
              ⟨mapSet st.adjacency n.id [], mapSet st.incoming n.id [],
               mapSet st.indegree n.id 0⟩) st).indegree k).isSome →
            (mapGet (nodesByIdOf nodes) k).isSome)) := by
      intro l
      induction l with
      | nil => intro _ st h; exact h
      | cons n rest ih =>
        intro hl st h
        rw [List.foldl_cons]
        refine ih (fun y hy => hl y (List.mem_cons_of_mem _ hy)) _ ⟨?_, ?_⟩
        · intro p hp
          rcases mem_mapSet p hp with h1 | h2
          · rw [h1]
          · exact h.1 p h2
        · intro k hk
          simp only at hk
          by_cases hkn : n.id = k
          · exact hkn ▸ hl n (List.mem_cons_self _ _)
          · rw [mapGet_mapSet, if_neg hkn] at hk
            exact h.2 k hk
    unfold adjInit
    refine main nodes ?_ ⟨[], [], []⟩ ⟨by simp, by intro k hk; simp [mapGet] at hk⟩
    intro n hn
    exact nodesById_hasAll (List.mem_map_of_mem _ hn)
  have main2 : ∀ (l : List LEdge) (st : AdjState),
      ((∀ p ∈ st.adjacency, ∀ x ∈ p.2, (mapGet (nodesByIdOf nodes) x).isSome) ∧
        (∀ k, (mapGet st.indegree k).isSome →
          (mapGet (nodesByIdOf nodes) k).isSome)) →
      ((∀ p ∈ (l.foldl (adjStep (nodesByIdOf nodes)) st).adjacency, ∀ x ∈ p.2,
          (mapGet (nodesByIdOf nodes) x).isSome) ∧
        (∀ k, (mapGet (l.foldl (adjStep (nodesByIdOf nodes)) st).indegree k).isSome →
          (mapGet (nodesByIdOf nodes) k).isSome)) := by
    intro l
    induction l with
    | nil => intro st h; exact h
    | cons e rest ih =>
      intro st h
      rw [List.foldl_cons]
      refine ih _ ?_
      unfold adjStep
      by_cases hskip : (mapGet (nodesByIdOf nodes) e.source).isNone ∨
          (mapGet (nodesByIdOf nodes) e.target).isNone
      · rw [if_pos hskip]
        exact h
      · rw [if_neg hskip]
        push_neg at hskip
        have hsrc : (mapGet (nodesByIdOf nodes) e.source).isSome := by
          cases hg : mapGet (nodesByIdOf nodes) e.source with
          | none => exact absurd (by simp [hg]) hskip.1
          | some w => simp
        have htgt : (mapGet (nodesByIdOf nodes) e.target).isSome := by
          cases hg : mapGet (nodesByIdOf nodes) e.target with
          | none => exact absurd (by simp [hg]) hskip.2
          | some w => simp
        refine ⟨?_, ?_⟩
        · intro p hp x hx
          simp only at hp
          rcases mem_mapSet p hp with h1 | h2
          · rw [h1] at hx
            simp only at hx
            rcases List.mem_append.mp hx with h3 | h4
            · cases hg : mapGet st.adjacency e.source with
              | none =>
                rw [hg] at h3
                simp at h3
              | some old =>
                rw [hg] at h3
                simp only [Option.getD_some] at h3
                exact h.1 (e.source, old) (mapGet_mem hg) x h3
            · simp only [List.mem_singleton] at h4
              exact h4 ▸ htgt
          · exact h.1 p h2 x hx
        · intro k hk
          simp only at hk
          by_cases hkt : e.target = k
          · exact hkt ▸ htgt
          · rw [mapGet_mapSet, if_neg hkt] at hk
            exact h.2 k hk
  have hfold := main2 edges (adjInit nodes)
    ⟨fun p hp x hx => by rw [hinit.1 p hp] at hx; simp at hx, hinit.2⟩
  exact hfold

theorem initialLayers_sub {P : String → Prop} {q0 : List String}
    (hq : ∀ x ∈ q0, P x) :
    ∀ k, (mapGet (initialLayers q0) k).isSome → P k := by
  unfold initialLayers
  have main : ∀ (l : List String), (∀ x ∈ l, P x) →
      ∀ (m : List (String × Nat)), (∀ k, (mapGet m k).isSome → P k) →
      ∀ k, (mapGet (l.foldl (fun m id => mapSet m id 0) m) k).isSome → P k := by
    intro l
    induction l with
    | nil => intro _ m h; exact h
    | cons x xs ih =>
      intro hl m h
      rw [List.foldl_cons]
      refine ih (fun y hy => hl y (List.mem_cons_of_mem _ hy)) _ ?_
      intro k hk
      by_cases hkx : x = k
      · exact hkx ▸ hl x (List.mem_cons_self _ _)
      · rw [mapGet_mapSet, if_neg hkx] at hk
        exact h k hk
  exact main q0 hq [] (by intro k hk; simp [mapGet] at hk)

theorem initialQueue_sub {ind : List (String × Int)} {q : String}
    (h : q ∈ initialQueue ind) : (mapGet ind q).isSome := by
  unfold initialQueue at h
  rw [mapGet_isSome_iff_mem_keys]
  obtain ⟨p, hp, hpq⟩ := List.mem_map.mp h
  exact hpq ▸ List.mem_map_of_mem _ (List.mem_filter.mp hp).1

theorem unresolvedOf_sub {nb : List (String × LNode)}
    {layer : List (String × Nat)} {x : String}
    (h : x ∈ unresolvedOf nb layer) : (mapGet nb x).isSome := by
  unfold unresolvedOf at h
  rw [mapGet_isSome_iff_mem_keys]
  exact (List.mem_filter.mp h).1

theorem finalLayers_keysNodup (nodes : List LNode) (edges : List LEdge) :
    ((finalLayers nodes edges).map Prod.fst).Nodup := by
  have h1 : ((bfsStateOf nodes edges).layer.map Prod.fst).Nodup := by
    unfold bfsStateOf
    exact bfsRun_layer_keysNodup _ _ (keysNodup_initialLayers _)
  have h2 : (((cycleRelaxed nodes edges).1).map Prod.fst).Nodup := by
    simp only [cycleRelaxed]
    cases unresolvedOf (nodesByIdOf nodes) (bfsStateOf nodes edges).layer with
    | nil => exact h1
    | cons x xs =>
      simp only
      exact relaxLoop_layer_keysNodup _ _ _ _ h1
  simp only [finalLayers]
  cases (cycleRelaxed nodes edges).2 with
  | nil => exact h2
  | cons x xs =>
    simp only
    exact trailing_layer_keysNodup _ _ _ h2

theorem finalLayers_sub (nodes : List LNode) (edges : List LEdge) :
    ∀ k, (mapGet (finalLayers nodes edges) k).isSome →
      (mapGet (nodesByIdOf nodes) k).isSome := by
  obtain ⟨hadj, hind⟩ := adjStateOf_domains nodes edges
  have h1 : ∀ k, (mapGet (bfsStateOf nodes edges).layer k).isSome →
      (mapGet (nodesByIdOf nodes) k).isSome := by
    unfold bfsStateOf
    refine bfsRun_layer_sub hadj _ _ (initialLayers_sub ?_)
    intro x hx
    exact hind x (initialQueue_sub hx)
  have h2 : ∀ k, (mapGet (cycleRelaxed nodes edges).1 k).isSome →
      (mapGet (nodesByIdOf nodes) k).isSome := by
    simp only [cycleRelaxed]
    cases hun : unresolvedOf (nodesByIdOf nodes) (bfsStateOf nodes edges).layer with
    | nil => exact h1
    | cons x xs =>
      simp only
      refine relaxLoop_layer_sub _ _ _ ?_ _ h1
      intro y hy
      refine @unresolvedOf_sub (nodesByIdOf nodes)
        ((bfsStateOf nodes edges).layer) y ?_
      rw [hun]
      exact hy
  have h2un : ∀ y ∈ (cycleRelaxed nodes edges).2,
      (mapGet (nodesByIdOf nodes) y).isSome := by
    simp only [cycleRelaxed]
    cases hun : unresolvedOf (nodesByIdOf nodes) (bfsStateOf nodes edges).layer with
    | nil => intro y hy; simp at hy
    | cons x xs =>
      simp only
      intro y hy
      have hyun : y ∈ unresolvedOf (nodesByIdOf nodes)
          (bfsStateOf nodes edges).layer := by
        rw [hun]
        exact relaxLoop_subset _ _ _ _ y hy
      exact unresolvedOf_sub hyun
  simp only [finalLayers]
  cases hr : (cycleRelaxed nodes edges).2 with
  | nil => exact h2
  | cons x xs =>
    simp only
    refine trailing_layer_sub _ ?_ _ _ h2
    intro p hp
    have hmem : p.2 ∈ sortByCmp (compareNodes (nodesByIdOf nodes)) (x :: xs) := by
      have := List.enum_map_snd (sortByCmp (compareNodes (nodesByIdOf nodes)) (x :: xs))
      rw [← this]
      exact List.mem_map_of_mem _ hp
    have hperm : List.Perm
        (sortByCmp (compareNodes (nodesByIdOf nodes)) (x :: xs)) (x :: xs) :=
      List.mergeSort_perm _ _
    refine h2un p.2 ?_
    rw [hr]
    exact hperm.mem_iff.mp hmem

theorem relaxPass_isSome_mono (inc : List (String × List String)) :
    ∀ (un : List String) (layer : List (String × Nat)) (k : String),
      (mapGet layer k).isSome → (mapGet (relaxPass inc layer un).1 k).isSome := by
  intro un
  induction un with
  | nil => intro layer k h; exact h
  | cons x xs ih =>
    intro layer k h
    rw [relaxPass]
    cases ((mapGet inc x).getD []).filterMap
        (fun p => mapGet (relaxPass inc layer xs).1 p) with
    | nil => exact ih layer k h
    | cons a as =>
      simp only
      exact isSome_mapSet_mono (ih layer k h) _ _

theorem relaxLoop_isSome_mono (inc : List (String × List String)) :
    ∀ (fuel : Nat) (layer : List (String × Nat)) (un : List String)
      (k : String), (mapGet layer k).isSome →
      (mapGet (relaxLoop inc fuel layer un).1 k).isSome := by
  intro fuel
  induction fuel with
  | zero => intro layer un k h; exact h
  | succ n ih =>
    intro layer un k h
    rw [relaxLoop.eq_def]
    cases un with
    | nil => exact h
    | cons x xs =>
      simp only
      by_cases hprog : (relaxPass inc layer (x :: xs)).2.2
      · rw [if_pos hprog]
        exact ih _ _ k (relaxPass_isSome_mono inc _ layer k h)
      · rw [if_neg hprog]
        exact relaxPass_isSome_mono inc _ layer k h

theorem trailing_isSome_mono :
    ∀ (l : List (Nat × String)) (layer : List (String × Nat)) (s : Nat)
      (k : String), (mapGet layer k).isSome →
      (mapGet (l.foldl (fun m p => mapSet m p.2 (s + p.1)) layer) k).isSome := by
  intro l
  induction l with
  | nil => intro layer s k h; exact h
  | cons p ps ih =>
    intro layer s k h
    rw [List.foldl_cons]
    exact ih _ s k (isSome_mapSet_mono h _ _)

theorem relaxPass_covers (inc : List (String × List String)) :
    ∀ (un : List String) (layer : List (String × Nat)) (x : String),
      x ∈ un → (mapGet (relaxPass inc layer un).1 x).isSome ∨
        x ∈ (relaxPass inc layer un).2.1 := by
  intro un
  induction un with
  | nil => intro layer x h; simp at h
  | cons y ys ih =>
    intro layer x hx
    rw [relaxPass]
    cases ((mapGet inc y).getD []).filterMap
        (fun p => mapGet (relaxPass inc layer ys).1 p) with
    | nil =>
      simp only
      rcases List.mem_cons.mp hx with h1 | h2
      · exact Or.inr (h1 ▸ List.mem_cons_self _ _)
      · rcases ih layer x h2 with h3 | h4
        · exact Or.inl h3
        · exact Or.inr (List.mem_cons_of_mem _ h4)
    | cons a as =>
      simp only
      rcases List.mem_cons.mp hx with h1 | h2
      · exact Or.inl (h1 ▸ isSome_mapSet_self _ _ _)
      · rcases ih layer x h2 with h3 | h4
        · exact Or.inl (isSome_mapSet_mono h3 _ _)
        · exact Or.inr h4

theorem relaxLoop_covers (inc : List (String × List String)) :
    ∀ (fuel : Nat) (layer : List (String × Nat)) (un : List String)
      (x : String), x ∈ un →
      (mapGet (relaxLoop inc fuel layer un).1 x).isSome ∨
        x ∈ (relaxLoop inc fuel layer un).2 := by
  intro fuel
  induction fuel with
  | zero => intro layer un x h; exact Or.inr h
  | succ n ih =>
    intro layer un x hx
    rw [relaxLoop.eq_def]
    cases un with
    | nil => simp at hx
    | cons y ys =>
      simp only
      by_cases hprog : (relaxPass inc layer (y :: ys)).2.2
      · rw [if_pos hprog]
        rcases relaxPass_covers inc _ layer x hx with h1 | h2
        · exact Or.inl (relaxLoop_isSome_mono inc _ _ _ x h1)
        · exact ih _ _ x h2
      · rw [if_neg hprog]
        exact relaxPass_covers inc _ layer x hx

theorem trailing_covers :
    ∀ (l : List (Nat × String)) (layer : List (String × Nat)) (s : Nat)
      (x : String), x ∈ l.map Prod.snd →
      (mapGet (l.foldl (fun m p => mapSet m p.2 (s + p.1)) layer) x).isSome := by
  intro l
  induction l with
  | nil => intro layer s x h; simp at h
  | cons p ps ih =>
    intro layer s x hx
    rw [List.foldl_cons]
    rcases List.mem_cons.mp hx with h1 | h2
    · exact trailing_isSome_mono ps _ s x (h1 ▸ isSome_mapSet_self _ _ _)
    · exact ih _ s x h2

theorem finalLayers_complete (nodes : List LNode) (edges : List LEdge)
    (x : String) (hx : x ∈ nodes.map LNode.id) :
    (mapGet (finalLayers nodes edges) x).isSome := by
  have hcyc : (mapGet (cycleRelaxed nodes edges).1 x).isSome ∨
      x ∈ (cycleRelaxed nodes edges).2 := by
    simp only [cycleRelaxed]
    cases hun : unresolvedOf (nodesByIdOf nodes) (bfsStateOf nodes edges).layer with
    | nil =>
      cases hb : mapGet (bfsStateOf nodes edges).layer x with
      | some v => exact Or.inl (by simp)
      | none =>
        exfalso
        have hmem : x ∈ unresolvedOf (nodesByIdOf nodes)
            (bfsStateOf nodes edges).layer := by
          unfold unresolvedOf
          refine List.mem_filter.mpr ⟨?_, by simp [hb]⟩
          exact (mapGet_isSome_iff_mem_keys _ _).mp (nodesById_hasAll hx)
        rw [hun] at hmem
        simp at hmem
    | cons y ys =>
      simp only
      cases hb : mapGet (bfsStateOf nodes edges).layer x with
      | some v =>
        exact Or.inl (relaxLoop_isSome_mono _ _ _ _ x (by simp [hb]))
      | none =>
        refine relaxLoop_covers _ _ _ _ x ?_
        rw [← hun]
        unfold unresolvedOf
        refine List.mem_filter.mpr ⟨?_, by simp [hb]⟩
        exact (mapGet_isSome_iff_mem_keys _ _).mp (nodesById_hasAll hx)
  simp only [finalLayers]
  cases hr : (cycleRelaxed nodes edges).2 with
  | nil =>
    rcases hcyc with h1 | h2
    · exact h1
    · rw [hr] at h2; simp at h2
  | cons y ys =>
    simp only
    rcases hcyc with h1 | h2
    · exact trailing_isSome_mono _ _ _ x h1
    · refine trailing_covers _ _ _ x ?_
      rw [List.enum_map_snd]
      have hperm : List.Perm
          (sortByCmp (compareNodes (nodesByIdOf nodes)) (y :: ys)) (y :: ys) :=
        List.mergeSort_perm _ _
      rw [hr] at h2
      exact hperm.mem_iff.mpr h2

theorem nodesByIdOf_keys_eq (nodes : List LNode)
    (hnd : (nodes.map LNode.id).Nodup) :
    (nodesByIdOf nodes).map Prod.fst = nodes.map LNode.id := by
  unfold nodesByIdOf
  have := @nodesById_keys nodes [] (by simpa using hnd)
  simpa using this

theorem finalLayers_keys_perm (nodes : List LNode) (edges : List LEdge)
    (hnd : (nodes.map LNode.id).Nodup) :
    List.Perm ((finalLayers nodes edges).map Prod.fst) (nodes.map LNode.id) := by
  refine (List.perm_ext_iff_of_nodup (finalLayers_keysNodup nodes edges) hnd).mpr ?_
  intro k
  constructor
  · intro hk
    have hsome : (mapGet (finalLayers nodes edges) k).isSome :=
      (mapGet_isSome_iff_mem_keys _ _).mpr hk
    have := finalLayers_sub nodes edges k hsome
    rw [mapGet_isSome_iff_mem_keys, nodesByIdOf_keys_eq nodes hnd] at this
    exact this
  · intro hk
    exact (mapGet_isSome_iff_mem_keys _ _).mp (finalLayers_complete nodes edges k hk)

theorem flatten_mapSet_append {κ : Type} [DecidableEq κ]
    (k : κ) (x : String) :
    ∀ (g : List (κ × List String)),
      List.Perm
        (((mapSet g k ((mapGet g k).getD [] ++ [x])).map Prod.snd).flatten)
        (((g.map Prod.snd).flatten) ++ [x]) := by
  intro g
  induction g with
  | nil => simp [mapSet, mapGet]
  | cons p rest ih =>
    by_cases hk : p.1 = k
    · rw [mapGet, if_pos hk, mapSet, if_pos hk]
      simp only [Option.getD_some, List.map_cons, List.flatten_cons]
      rw [List.append_assoc, List.append_assoc]
      exact List.Perm.append_left p.2 List.perm_append_comm
    · rw [mapGet, if_neg hk, mapSet, if_neg hk]
      simp only [List.map_cons, List.flatten_cons]
      rw [List.append_assoc]
      exact List.Perm.append_left p.2 ih

theorem layersGroups_flatten_aux :
    ∀ (l : List (String × Nat)) (g : List (Nat × List String)),
      List.Perm
        (((l.foldl
          (fun g p => mapSet g p.2 ((mapGet g p.2).getD [] ++ [p.1])) g).map
            Prod.snd).flatten)
        (((g.map Prod.snd).flatten) ++ l.map Prod.fst) := by
  intro l
  induction l with
  | nil => intro g; simp
  | cons p ps ih =>
    intro g
    rw [List.foldl_cons]
    refine (ih _).trans ?_
    refine ((flatten_mapSet_append p.2 p.1 g).append_right _).trans ?_
    rw [List.append_assoc]
    simp

theorem layersGroups_keysNodup :
    ∀ (l : List (String × Nat)) (g : List (Nat × List String)),
      (g.map Prod.fst).Nodup →
      (((l.foldl
        (fun g p => mapSet g p.2 ((mapGet g p.2).getD [] ++ [p.1])) g).map
          Prod.fst).Nodup) := by
  intro l
  induction l with
  | nil => intro g h; exact h
  | cons p ps ih =>
    intro g h
    rw [List.foldl_cons]
    exact ih _ (keysNodup_mapSet _ _ h)

theorem map_getD_keys {κ : Type} [DecidableEq κ] :
    ∀ (g : List (κ × List String)), (g.map Prod.fst).Nodup →
      (g.map Prod.fst).map (fun k => (mapGet g k).getD []) = g.map Prod.snd := by
  intro g
  induction g with
  | nil => simp
  | cons p rest ih =>
    intro hnd
    simp only [List.map_cons]
    have hnd1 := List.nodup_cons.mp hnd
    congr 1
    · rw [mapGet, if_pos rfl]
      rfl
    · have hcongr : (rest.map Prod.fst).map (fun k => (mapGet (p :: rest) k).getD [])
          = (rest.map Prod.fst).map (fun k => (mapGet rest k).getD []) := by
        refine List.map_congr_left ?_
        intro a ha
        have hne : p.1 ≠ a := fun hc => hnd1.1 (hc ▸ ha)
        rw [mapGet, if_neg hne]
      rw [hcongr]
      exact ih hnd1.2

theorem forwardSweep_flatten (nb : List (String × LNode))
    (inc : List (String × List String)) (groups : List (Nat × List String)) :
    ∀ (sv : List Nat) (acc : List (String × Nat) × List (Nat × List String)),
      List.Perm
        (((sv.foldl
          (fun acc v =>
            let base := sortByCmp (compareNodes nb) ((mapGet groups v).getD [])
            let ids1 := sortByCmp (cmpForward nb inc acc.1) base
            let owl1 := ids1.enum.foldl (fun m p => mapSet m p.2 p.1) acc.1
            (owl1, acc.2 ++ [(v, ids1)])) acc).2.map Prod.snd).flatten)
        (((acc.2.map Prod.snd).flatten) ++
          ((sv.map (fun v => (mapGet groups v).getD [])).flatten)) := by
  intro sv
  induction sv with
  | nil => intro acc; simp
  | cons v vs ih =>
    intro acc
    rw [List.foldl_cons]
    refine (ih _).trans ?_
    simp only [List.map_append, List.flatten_append, List.map_cons,
      List.flatten_cons, List.map_nil, List.flatten_nil, List.append_nil]
    rw [List.append_assoc]
    refine List.Perm.append_left _ ?_
    exact List.Perm.append
      ((List.mergeSort_perm _ _).trans (List.mergeSort_perm _ _))
      (List.Perm.refl _)

theorem flatten_set_perm :
    ∀ (l : List (Nat × List String)) (i : Nat) (li : Nat × List String)
      (ids1 : List String), l.get? i = some li → List.Perm ids1 li.2 →
      List.Perm (((l.set i (li.1, ids1)).map Prod.snd).flatten)
        ((l.map Prod.snd).flatten) := by
  intro l
  induction l with
  | nil => intro i li ids1 h _; simp at h
  | cons p ps ih =>
    intro i li ids1 hget hperm
    cases i with
    | zero =>
      simp only [List.get?_cons_zero, Option.some.injEq] at hget
      subst hget
      simp only [List.set_cons_zero, List.map_cons, List.flatten_cons]
      exact hperm.append_right _
    | succ j =>
      simp only [List.get?_cons_succ] at hget
      simp only [List.set_cons_succ, List.map_cons, List.flatten_cons]
      exact List.Perm.append_left _ (ih j li ids1 hget hperm)

theorem backwardSweep_flatten_aux (nb : List (String × LNode))
    (adjacency : List (String × List String)) :
    ∀ (idxs : List Nat) (acc : List (String × Nat) × List (Nat × List String)),
      List.Perm
        (((idxs.foldl
          (fun acc i =>
            match acc.2.get? i with
            | none => acc
            | some li =>
              let ids1 := sortByCmp (cmpBackward nb adjacency acc.1) li.2
              let owl1 := ids1.enum.foldl (fun m p => mapSet m p.2 p.1) acc.1
              (owl1, acc.2.set i (li.1, ids1))) acc).2.map Prod.snd).flatten)
        ((acc.2.map Prod.snd).flatten) := by
  intro idxs
  induction idxs with
  | nil => intro acc; exact List.Perm.refl _
  | cons i is ih =>
    intro acc
    rw [List.foldl_cons]
    cases hget : acc.2.get? i with
    | none =>
      simp only [hget]
      exact ih _
    | some li =>
      simp only [hget]
      refine (ih _).trans ?_
      exact flatten_set_perm _ i li _ hget (List.mergeSort_perm _ _)

theorem coordinates_inner (nb : List (String × LNode))
    (inc : List (String × List String)) (col : Nat × (Nat × List String)) :
    ∀ (l : List (Nat × String))
      (st0 : (List PositionedNode × List (String × ℚ)) × ℚ),
      (((l.foldl
        (fun (st : (List PositionedNode × List (String × ℚ)) × ℚ) p =>
          let nodeId := p.2
          let parents := (mapGet inc nodeId).getD []
          let parentPositions := parents.filterMap fun q => mapGet st.1.2 q
          let idealY : ℚ :=
            match parentPositions with
            | [] => 120 + p.1 * 160
            | _ :: _ =>
              (parentPositions.foldl (· + ·) 0) / parentPositions.length
          let minimumY : ℚ := st.2 + 160 * (4 / 5)
          let snappedY : ℚ := 120 + p.1 * 160
          let finalY := max idealY (max snappedY minimumY)
          let lbl := match mapGet nb nodeId with
            | some n => n.label
            | none => nodeId
          let svc := match mapGet nb nodeId with
            | some n => n.service
            | none => "Unknown"
          ((st.1.1 ++ [⟨nodeId, lbl, svc, 80 + col.1 * 320, finalY⟩],
            mapSet st.1.2 nodeId finalY), finalY)) st0).1.1).map
          PositionedNode.id) =
        (st0.1.1.map PositionedNode.id) ++ l.map Prod.snd := by
  intro l
  induction l with
  | nil => intro st0; simp
  | cons p ps ih =>
    intro st0
    rw [List.foldl_cons]
    rw [ih]
    simp

theorem coordinates_outer (nb : List (String × LNode))
    (inc : List (String × List String)) :
    ∀ (ls : List (Nat × (Nat × List String)))
      (acc : List PositionedNode × List (String × ℚ)),
      (((ls.foldl
        (fun (acc : List PositionedNode × List (String × ℚ)) col =>
          let inner := col.2.2.enum.foldl
            (fun (st : (List PositionedNode × List (String × ℚ)) × ℚ) p =>
              let nodeId := p.2
              let parents := (mapGet inc nodeId).getD []
              let parentPositions := parents.filterMap fun q => mapGet st.1.2 q
              let idealY : ℚ :=
                match parentPositions with
                | [] => 120 + p.1 * 160
                | _ :: _ =>
                  (parentPositions.foldl (· + ·) 0) / parentPositions.length
              let minimumY : ℚ := st.2 + 160 * (4 / 5)
              let snappedY : ℚ := 120 + p.1 * 160
              let finalY := max idealY (max snappedY minimumY)
              let lbl := match mapGet nb nodeId with
                | some n => n.label
                | none => nodeId
              let svc := match mapGet nb nodeId with
                | some n => n.service
                | none => "Unknown"
              ((st.1.1 ++ [⟨nodeId, lbl, svc, 80 + col.1 * 320, finalY⟩],
                mapSet st.1.2 nodeId finalY), finalY))
            ((acc.1, acc.2), (120 : ℚ) - 160)
          inner.1) acc).1).map PositionedNode.id) =
        (acc.1.map PositionedNode.id) ++
          ((ls.map (fun col => col.2.2)).flatten) := by
  intro ls
  induction ls with
  | nil => intro acc; simp
  | cons col cs ih =>
    intro acc
    rw [List.foldl_cons]
    rw [ih]
    rw [coordinates_inner nb inc col]
    simp [List.enum_map_snd]

theorem coordinatesOf_ids (nb : List (String × LNode))
    (inc : List (String × List String)) (layers : List (Nat × List String)) :
    (coordinatesOf nb inc layers).map PositionedNode.id =
      ((layers.map Prod.snd).flatten) := by
  unfold coordinatesOf
  rw [coordinates_outer nb inc]
  have : layers.enum.map (fun col => col.2.2) = layers.map Prod.snd := by
    have h1 : (fun (col : Nat × (Nat × List String)) => col.2.2) =
        (Prod.snd ∘ Prod.snd) := rfl
    rw [h1, ← List.map_map, List.enum_map_snd]
  rw [this]
  simp

theorem layersByValueOf_flatten (layer : List (String × Nat)) :
    List.Perm (((layersByValueOf layer).map Prod.snd).flatten)
      (layer.map Prod.fst) := by
  unfold layersByValueOf
  simpa using layersGroups_flatten_aux layer []

theorem layersByValueOf_keysNodup (layer : List (String × Nat)) :
    ((layersByValueOf layer).map Prod.fst).Nodup := by
  unfold layersByValueOf
  exact layersGroups_keysNodup layer [] (by simp)

theorem forwardSweep_snd_flatten (nb : List (String × LNode))
    (inc : List (String × List String)) (groups : List (Nat × List String))
    (sv : List Nat) :
    List.Perm (((forwardSweep nb inc groups sv).2.map Prod.snd).flatten)
      ((sv.map (fun v => (mapGet groups v).getD [])).flatten) := by
  unfold forwardSweep
  simpa using forwardSweep_flatten nb inc groups sv ([], [])

theorem backwardSweep_snd_flatten (nb : List (String × LNode))
    (adjacency : List (String × List String))
    (owl0 : List (String × Nat)) (layers0 : List (Nat × List String)) :
    List.Perm (((backwardSweep nb adjacency owl0 layers0).2.map Prod.snd).flatten)
      ((layers0.map Prod.snd).flatten) := by
  unfold backwardSweep
  exact backwardSweep_flatten_aux nb adjacency _ (owl0, layers0)

/-- C8: For every input graph whose node ids are pairwise distinct, the
layered layout engine positions exactly the input nodes: the multiset of
ids of the positioned output equals the input id set, so every input node
receives exactly one position and no positioned node has an id absent from
the input. -/
theorem layout_positions_exactly_input_nodes (nodes : List LNode)
    (edges : List LEdge) (hnd : (nodes.map LNode.id).Nodup) :
    List.Perm ((buildHeuristicLayout nodes edges).1.map PositionedNode.id)
      (nodes.map LNode.id) := by
  simp only [buildHeuristicLayout]
  rw [coordinatesOf_ids]
  refine (backwardSweep_snd_flatten _ _ _ _).trans ?_
  refine (forwardSweep_snd_flatten _ _ _ _).trans ?_
  have hsv : List.Perm
      (sortedLayerValuesOf (layersByValueOf (finalLayers nodes edges)))
      ((layersByValueOf (finalLayers nodes edges)).map Prod.fst) := by
    unfold sortedLayerValuesOf
    exact List.mergeSort_perm _ _
  have hmap := hsv.map
    (fun v => (mapGet (layersByValueOf (finalLayers nodes edges)) v).getD [])
  refine hmap.flatten.trans ?_
  rw [map_getD_keys _ (layersByValueOf_keysNodup (finalLayers nodes edges))]
  refine (layersByValueOf_flatten (finalLayers nodes edges)).trans ?_
  exact finalLayers_keys_perm nodes edges hnd

/-- Closed instance of the C8 theorem on a concrete two-node graph. -/
theorem layout_positions_exactly_input_nodes_witness :
    (([⟨"a", "A", "s1"⟩, ⟨"b", "B", "s2"⟩] : List LNode).map LNode.id).Nodup ∧
      List.Perm
        ((buildHeuristicLayout [⟨"a", "A", "s1"⟩, ⟨"b", "B", "s2"⟩]
          [⟨"a", "b"⟩]).1.map PositionedNode.id)
        (([⟨"a", "A", "s1"⟩, ⟨"b", "B", "s2"⟩] : List LNode).map LNode.id) :=
  ⟨by decide,
    layout_positions_exactly_input_nodes
      [⟨"a", "A", "s1"⟩, ⟨"b", "B", "s2"⟩] [⟨"a", "b"⟩] (by decide)⟩

end Aws
